import Mathlib

/-
Shallow embedding of the cleaning / feature-derivation pipeline of
`src/01_preprocess.py` (repository phanlerda/laptop_failure).

A pandas DataFrame is modelled as a list of column names together with a
list of rows; a row is an association list from column name to `Cell`.
Floats are modelled as rationals, with explicit `pinf` / `ninf`
constructors for the two IEEE infinities that float division can produce,
and `na` for NaN / NaT / missing.  Dates are counted in days since
1970-01-01, the unit in which pandas reports `.dt.days`.
-/

namespace LP

set_option maxRecDepth 100000
set_option maxHeartbeats 1000000

/-- A cell of the tabular record set: missing (`NaN`/`NaT`), a raw string,
a finite float (as a rational), a date (days since 1970-01-01), or an
IEEE infinity. -/
inductive Cell where
  | na
  | str (s : String)
  | num (q : ℚ)
  | date (d : ℤ)
  | pinf
  | ninf

deriving instance DecidableEq, Repr for Cell

/-- One DataFrame row: an association list from column name to cell. -/
abbrev Row := List (String × Cell)

/-- A DataFrame: its column list and its rows. -/
structure Table where
  cols : List String
  rows : List Row

deriving instance DecidableEq, Repr for Table

/-- Looking a column up in a row; a key that is absent reads as `na`,
matching a DataFrame cell that was never assigned. -/
def getCell : Row → String → Cell
  | [], _ => .na
  | (k, v) :: r, c => if k = c then v else getCell r c

/-- Column assignment at one row: the new binding shadows (and erases) any
previous binding of the same column. -/
def setCellRow (r : Row) (c : String) (v : Cell) : Row :=
  (c, v) :: r.filter (fun kv => decide (kv.1 ≠ c))

/-- The full contents of column `c`, in row order (`df[c]`). -/
def colList (t : Table) (c : String) : List Cell :=
  t.rows.map (fun r => getCell r c)

/-- `df[c] = f(row)` — column assignment computed rowwise; a new column
name is appended at the end of the column list, as pandas does. -/
def setColByRow (t : Table) (c : String) (f : Row → Cell) : Table :=
  ⟨if c ∈ t.cols then t.cols else t.cols ++ [c],
   t.rows.map (fun r => setCellRow r c (f r))⟩

/-- `df[c] = df[c].apply f` — elementwise transform of one column. -/
def mapColTable (t : Table) (c : String) (f : Cell → Cell) : Table :=
  setColByRow t c (fun r => f (getCell r c))

/-- `df[c] = series` — column assignment from a precomputed value list. -/
def setColVals (t : Table) (c : String) (vs : List Cell) : Table :=
  ⟨if c ∈ t.cols then t.cols else t.cols ++ [c],
   (t.rows.zip vs).map (fun p => setCellRow p.1 c p.2)⟩

/- ### String helpers (modelling Python's `str` methods charwise) -/

/-- The whitespace stripped by Python's `str.strip()`. -/
def isWS (c : Char) : Bool :=
  decide (c = ' ') || decide (c = '\t') || decide (c = '\n') || decide (c = '\r')

/-- `str.strip()` on a character list. -/
def stripList (cs : List Char) : List Char :=
  ((cs.dropWhile isWS).reverse.dropWhile isWS).reverse

/-- `str.strip()`. -/
def strip (s : String) : String := ⟨stripList s.toList⟩

/-- Does `cs` start with `pat`? -/
def listStarts : List Char → List Char → Bool
  | _, [] => true
  | [], _ :: _ => false
  | a :: as, b :: bs => decide (a = b) && listStarts as bs

/-- Does `cs` contain `pat` as a contiguous run (`pat in s`)? -/
def listHas : List Char → List Char → Bool
  | [], pat => listStarts [] pat
  | a :: t, pat => listStarts (a :: t) pat || listHas t pat

/-- `pat in s` on strings. -/
def strContains (s pat : String) : Bool := listHas s.toList pat.toList

/-- Value of a decimal digit list (most significant first). -/
def natOfDigits (cs : List Char) : ℕ :=
  cs.foldl (fun n c => 10 * n + (c.toNat - 48)) 0

/-- Are all characters decimal digits? -/
def allDigits (cs : List Char) : Bool := cs.all Char.isDigit

/-- Split a character list on a separator character. -/
def splitSepAux (sep : Char) : List Char → List Char → List (List Char)
  | [], acc => [acc.reverse]
  | c :: cs, acc =>
      if c = sep then acc.reverse :: splitSepAux sep cs []
      else splitSepAux sep cs (c :: acc)

/-- Split a character list on a separator character. -/
def splitSep (sep : Char) (cs : List Char) : List (List Char) :=
  splitSepAux sep cs []

/- ### `to_number` (src/01_preprocess.py lines 27-39) -/

/-- Python `float()` on a string already reduced to the alphabet
`[0-9.-]`: digits with at most one decimal point and at least one digit. -/
def parseMantissa (cs : List Char) : Option ℚ :=
  match splitSep '.' cs with
  | [a] =>
      if allDigits a && decide (a ≠ []) then some ((natOfDigits a : ℚ)) else none
  | [a, b] =>
      if allDigits a && allDigits b && decide (a ≠ [] ∨ b ≠ []) then
        some ((natOfDigits a : ℚ) + (natOfDigits b : ℚ) / (10 : ℚ) ^ b.length)
      else none
  | _ => none

/-- Python `float()` on the reduced alphabet: a single optional leading
minus sign, then a mantissa; anything else fails. -/
def parseFloat? (cs : List Char) : Option ℚ :=
  match cs with
  | '-' :: rest => (parseMantissa rest).map (fun q => -q)
  | _ => parseMantissa cs

/-- `to_number` on a string: strip, drop commas, drop em-dashes, keep only
`[0-9.-]` (the `re.sub` keeps every minus sign, wherever it occurs), then
reject `""`/`"-"`/`"--"` and parse, returning `none` on failure. -/
def toNumberStr (x : String) : Option ℚ :=
  let s1 := stripList x.toList
  let s2 := s1.filter (fun c => decide (c ≠ ','))
  let s3 := s2.filter (fun c => decide (c ≠ '—'))
  let s4 := s3.filter (fun c => c.isDigit || decide (c = '.') || decide (c = '-'))
  if s4 = [] ∨ s4 = ['-'] ∨ s4 = ['-', '-'] then none else parseFloat? s4

/-- `to_number` lifted to cells: NaN stays NaN, parse failure becomes NaN,
an already-numeric cell round-trips through `str()` unchanged. -/
def toNumberCell (v : Cell) : Cell :=
  match v with
  | .na => .na
  | .str s => (match toNumberStr s with | some q => .num q | none => .na)
  | .num q => .num q
  | _ => .na

/- ### `normalize_vendor` (src/01_preprocess.py lines 41-53) -/

/-- Association-list lookup (first match), the model of `dict.get`. -/
def lookupAssoc {α : Type} : List (String × α) → String → Option α
  | [], _ => none
  | (k, v) :: m, s => if k = s then some v else lookupAssoc m s

/-- The canonical vendor mapping dict of `normalize_vendor`; the three
duplicate `"msi"` entries of the source literal collapse to one, as they
do in a Python dict literal. -/
def vendorMapping : List (String × String) :=
  [("lenovo", "Lenovo"), ("lenov0", "Lenovo"), ("lenvo", "Lenovo"),
   ("dell", "Dell"), ("delll", "Dell"),
   ("hp", "HP"), ("h-p", "HP"),
   ("apple", "Apple"), ("ap ple", "Apple"),
   ("asus", "Asus"), ("asuss", "Asus"),
   ("acer", "Acer"), ("âcer", "Acer"),
   ("msi", "MSI")]

/-- `normalize_vendor` on a string: `strip()`, `lower()`,
`replace(" ", "")`, then exact lookup with default `"unknown"`. -/
def normVendorStr (v : String) : String :=
  let s : String := ⟨((stripList v.toList).map Char.toLower).filter (fun c => decide (c ≠ ' '))⟩
  (lookupAssoc vendorMapping s).getD "unknown"

/-- `normalize_vendor` on cells: NaN propagates (the sentinel is only
applied later by categorical imputation). -/
def normalizeVendorCell (v : Cell) : Cell :=
  match v with
  | .na => .na
  | .str s => .str (normVendorStr s)
  | _ => .str "unknown"

/-- `df["model"].astype(str).str.strip()`: `astype(str)` turns NaN into
the literal string `"nan"`. -/
def modelCell (v : Cell) : Cell :=
  match v with
  | .str s => .str (strip s)
  | _ => .str "nan"

/- ### `coerce_date` (src/01_preprocess.py lines 12-25) -/

/-- En/em dash to ASCII hyphen, as in `coerce_date`. -/
def dashFix (c : Char) : Char :=
  if c = '–' ∨ c = '—' then '-' else c

/-- Leap year as in the Gregorian calendar. -/
def isLeap (y : ℤ) : Bool :=
  (decide (y % 4 = 0) && decide (y % 100 ≠ 0)) || decide (y % 400 = 0)

/-- Days in a month. -/
def daysInMonth (y m : ℤ) : ℤ :=
  if m = 2 then (if isLeap y then 29 else 28)
  else if m = 4 ∨ m = 6 ∨ m = 9 ∨ m = 11 then 30
  else 31

/-- Days since 1970-01-01 of a civil date (standard civil-from-days
inverse; all intermediate quantities are nonnegative for the years the
pipeline meets). -/
def daysFromCivil (y m d : ℤ) : ℤ :=
  let y' := if m ≤ 2 then y - 1 else y
  let era := (if 0 ≤ y' then y' else y' - 399) / 400
  let yoe := y' - era * 400
  let mp := (m + 9) % 12
  let doy := (153 * mp + 2) / 5 + d - 1
  let doe := yoe * 365 + yoe / 4 - yoe / 100 + doy
  era * 146097 + doe - 719468

/-- A validated date, as `pd.to_datetime(s, format=...)` accepts it. -/
def mkDate? (y m d : ℤ) : Option ℤ :=
  if 1 ≤ m ∧ m ≤ 12 ∧ 1 ≤ d ∧ d ≤ daysInMonth y m then some (daysFromCivil y m d)
  else none

/-- A nonempty all-digit component, as `strptime` number fields match. -/
def parseIntPart (cs : List Char) : Option ℤ :=
  if allDigits cs && decide (cs ≠ []) then some ((natOfDigits cs : ℕ) : ℤ) else none

/-- Month abbreviations for the `%b` directive (case-insensitive). -/
def monthNames : List (String × ℤ) :=
  [("jan", 1), ("feb", 2), ("mar", 3), ("apr", 4), ("may", 5), ("jun", 6),
   ("jul", 7), ("aug", 8), ("sep", 9), ("oct", 10), ("nov", 11), ("dec", 12)]

/-- `%b`: a month abbreviation, matched case-insensitively. -/
def monthAbbrev? (cs : List Char) : Option ℤ :=
  lookupAssoc monthNames ⟨cs.map Char.toLower⟩

/-- One three-component numeric date format; the component order is given
by the caller. -/
def tryNumFmt (a b c : Option (List Char))
    (mk : ℤ → ℤ → ℤ → Option ℤ) : Option ℤ :=
  match a, b, c with
  | some a, some b, some c =>
      (match parseIntPart a, parseIntPart b, parseIntPart c with
       | some x, some y, some z => mk x y z
       | _, _, _ => none)
  | _, _, _ => none

/-- The components of a 3-way split, if the split has exactly 3 parts. -/
def split3 (sep : Char) (cs : List Char) : Option (List Char) × Option (List Char) × Option (List Char) :=
  match splitSep sep cs with
  | [a, b, c] => (some a, some b, some c)
  | _ => (none, none, none)

/-- `coerce_date` on a stripped, dash-normalized character list: the five
explicit formats tried in order (`%Y-%m-%d`, `%d/%m/%Y`, `%m-%d-%Y`,
`%Y/%m/%d`, `%d-%b-%Y`).  The final lenient `dayfirst` fallback of the
source is modelled as parse failure (null); no theorem below depends on
which extra strings that fallback would accept. -/
def coerceDateChars (cs : List Char) : Option ℤ :=
  let dash := split3 '-' cs
  let slash := split3 '/' cs
  (tryNumFmt dash.1 dash.2.1 dash.2.2 (fun y m d => mkDate? y m d)) <|>
  (tryNumFmt slash.1 slash.2.1 slash.2.2 (fun d m y => mkDate? y m d)) <|>
  (tryNumFmt dash.1 dash.2.1 dash.2.2 (fun m d y => mkDate? y m d)) <|>
  (tryNumFmt slash.1 slash.2.1 slash.2.2 (fun y m d => mkDate? y m d)) <|>
  (match dash with
   | (some a, some b, some c) =>
       (match parseIntPart a, monthAbbrev? b, parseIntPart c with
        | some d, some m, some y => mkDate? y m d
        | _, _, _ => none)
   | _ => none)

/-- `coerce_date` on cells: NaN/empty stays NaT, otherwise strip,
normalize dashes, try the formats, NaT on failure (never raises). -/
def coerceDateCell (v : Cell) : Cell :=
  match v with
  | .na => .na
  | .str s =>
      if s = "" then .na
      else (match coerceDateChars ((stripList s.toList).map dashFix) with
            | some d => .date d
            | none => .na)
  | _ => .na

/- ### Medians, quantiles, capping -/

/-- The finite numeric values of a column, in row order (a pandas
reduction skips NaN). -/
def nonNulls (xs : List Cell) : List ℚ :=
  xs.filterMap (fun v => match v with | .num q => some q | _ => none)

/-- The median of an already-sorted value list: the middle element, or
the mean of the two middles for an even count; `none` when empty. -/
def medianSorted (s : List ℚ) : Option ℚ :=
  if s.length = 0 then none
  else if s.length % 2 = 1 then some (s.getD (s.length / 2) 0)
  else some ((s.getD (s.length / 2 - 1) 0 + s.getD (s.length / 2) 0) / 2)

/-- `Series.median()`: middle of the sorted non-null values, mean of the
two middles for an even count, NaN (`none`) for an empty list. -/
def medianQ (xs : List ℚ) : Option ℚ :=
  medianSorted (List.insertionSort (· ≤ ·) xs)

/-- Linear interpolation into a sorted value list at fractional position
`h`: with `i = ⌊h⌋` and `f = h - i`, the value `(1-f)·s[i] + f·s[i+1]`. -/
def interpSorted (s : List ℚ) (h : ℚ) : ℚ :=
  (1 - (h - (((⌊h⌋).toNat : ℕ) : ℚ))) * s.getD (⌊h⌋).toNat 0 +
  (h - (((⌊h⌋).toNat : ℕ) : ℚ)) * s.getD ((⌊h⌋).toNat + 1) 0

/-- `Series.quantile(q)` with the default linear interpolation: the
interpolated value at position `(n-1)·q` of the sorted non-null values;
meaningful for `xs ≠ []` and `0 ≤ q < 1`. -/
def quantileQ (xs : List ℚ) (q : ℚ) : ℚ :=
  interpSorted (List.insertionSort (· ≤ ·) xs)
    ((((List.insertionSort (· ≤ ·) xs).length : ℚ) - 1) * q)

/-- Does the cell belong to a float-typed column (`dtype.kind in
"biufc"`)?  Strings and dates do not. -/
def numLike (v : Cell) : Bool :=
  match v with
  | .str _ => false
  | .date _ => false
  | _ => true

/-- `Series.clip(lo, hi)` elementwise; NaN passes through. -/
def clipCell (lo hi : ℚ) (v : Cell) : Cell :=
  match v with
  | .num q => .num (min (max q lo) hi)
  | .pinf => .num hi
  | .ninf => .num lo
  | v => v

/-- `cap_outliers` applied to column `c`: non-numeric columns are
returned unchanged; an all-NaN column has NaN quantiles and clipping is
the identity; otherwise clip to the [1%, 99%] quantiles of the current
column state. -/
def capColumn (t : Table) (c : String) : Table :=
  if (colList t c).all numLike then
    (match nonNulls (colList t c) with
     | [] => t
     | _ :: _ =>
        mapColTable t c
          (clipCell (quantileQ (nonNulls (colList t c)) (1 / 100))
            (quantileQ (nonNulls (colList t c)) (99 / 100))))
  else t

/- ### Pipeline stages (src/01_preprocess.py lines 61-149) -/

/-- `drop_duplicates(subset=["asset_id"], keep="last")`: a row is kept iff
no later row has the same `asset_id` cell; kept rows stay in order. -/
def dedupLast : List Row → List Row
  | [] => []
  | r :: rs =>
      if rs.any (fun r2 => decide (getCell r2 "asset_id" = getCell r "asset_id"))
      then dedupLast rs
      else r :: dedupLast rs

/-- Lines 63-65: deduplicate only when an `asset_id` column exists. -/
def dedupStep (t : Table) : Table :=
  if "asset_id" ∈ t.cols then ⟨t.cols, dedupLast t.rows⟩ else t

/-- Rename the keys of one row by trimming whitespace. -/
def trimKeys (r : Row) : Row :=
  r.map (fun kv => (⟨stripList kv.1.toList⟩, kv.2))

/-- Line 68: `df.columns = [c.strip() for c in df.columns]`. -/
def trimStep (t : Table) : Table :=
  ⟨t.cols.map (fun c => ⟨stripList c.toList⟩), t.rows.map trimKeys⟩

/-- The ingestion stage as the source orders it: deduplicate first (on the
raw, untrimmed header), then trim the headers. -/
def ingestStage (t : Table) : Table := trimStep (dedupStep t)

/-- A guarded elementwise column transform, the shape of every
`if c in df.columns: df[c] = df[c].apply(...)` loop body. -/
def stepMapCol (g : String → Cell → Cell) (t : Table) (c : String) : Table :=
  if c ∈ t.cols then mapColTable t c (g c) else t

/-- The three date columns of lines 71-73. -/
def dateCols : List String := ["purchase_date", "warranty_end", "retire_date"]

/-- Lines 71-73: date coercion of the date columns that are present. -/
def dateStep (t : Table) : Table :=
  dateCols.foldl (stepMapCol (fun _ => coerceDateCell)) t

/-- Lines 76-77: vendor normalization, when the column is present. -/
def vendorStep (t : Table) : Table :=
  if "vendor" ∈ t.cols then mapColTable t "vendor" normalizeVendorCell else t

/-- Lines 78-79: model trimming, when the column is present. -/
def modelStep (t : Table) : Table :=
  if "model" ∈ t.cols then mapColTable t "model" modelCell else t

/-- The numeric telemetry columns of lines 82-88. -/
def numCols : List String :=
  ["ram_gb", "storage_gb", "ticket_count_last_6m", "bsod_cnt_30d",
   "battery_cycle", "battery_design_cap", "battery_full_cap",
   "cpu_temp_max", "gpu_temp_max", "thermal_throttle_cnt",
   "smart_realloc", "smart_pending", "disk_errors_30d",
   "uptime_hours_7d", "patch_missing_cnt"]

/-- Lines 89-91: numeric coercion of the telemetry columns present. -/
def numStep (t : Table) : Table :=
  numCols.foldl (stepMapCol (fun _ => toNumberCell)) t

/-- Line 94-95: `battery_cycle < 0` becomes NaN (NaN compares false and
passes through). -/
def sanBattery (v : Cell) : Cell :=
  match v with
  | .num q => if q < 0 then .na else .num q
  | v => v

/-- Lines 96-99: a temperature below 20 or above 120 becomes NaN. -/
def sanTemp (v : Cell) : Cell :=
  match v with
  | .num q => if q < 20 then .na else if 120 < q then .na else .num q
  | v => v

/-- Lines 93-99: the sanity corrector. -/
def sanityStep (t : Table) : Table :=
  ["cpu_temp_max", "gpu_temp_max"].foldl (stepMapCol (fun _ => sanTemp))
    (if "battery_cycle" ∈ t.cols then mapColTable t "battery_cycle" sanBattery else t)

/-- The table immediately after sanity correction (everything of lines
61-99, i.e. just before imputation). -/
def preImpute (t : Table) : Table :=
  sanityStep (numStep (modelStep (vendorStep (dateStep (ingestStage t)))))

/-- `groupby("vendor")[c].transform("median")` at one group key: the
median of the non-null column values of the rows sharing that vendor
cell. -/
def groupMedian (vcol col : List Cell) (key : Cell) : Option ℚ :=
  medianQ (nonNulls ((vcol.zip col).filterMap
    (fun p => if p.1 = key then some p.2 else none)))

/-- A defined median fills as a number, an undefined one as NaN. -/
def optNum (o : Option ℚ) : Cell :=
  match o with
  | some m => .num m
  | none => .na

/-- The tier-1 value of one entry: a present value stays; a missing value
takes its vendor cohort's median, and stays missing when the vendor key
is itself NaN (outside every `groupby` group) or when the cohort median
is undefined. -/
def tier1Val (vcol col : List Cell) (vkey old : Cell) : Cell :=
  match old with
  | .na =>
      (match vkey with
       | .na => .na
       | _ => optNum (groupMedian vcol col vkey))
  | v => v

/-- Line 105-106: tier-1 fill — each missing value takes its vendor
cohort's median; rows with a NaN vendor key are outside every group and
stay missing, as does a cohort whose values are all null. -/
def tier1Fill (vcol col : List Cell) : List Cell :=
  (vcol.zip col).map (fun p => tier1Val vcol col p.1 p.2)

/-- `fillna(m)` at one entry. -/
def fillNa (m : ℚ) (v : Cell) : Cell :=
  match v with
  | .na => .num m
  | v => v

/-- Lines 107-108: tier-2 fill — remaining missing values take the global
median of the post-tier-1 column; an all-null column has an undefined
(NaN) median and is left unchanged. -/
def tier2Fill (xs : List Cell) : List Cell :=
  match medianQ (nonNulls xs) with
  | some m => xs.map (fillNa m)
  | none => xs

/-- The two-tier imputation of one numeric column. -/
def fillColumn (t : Table) (c : String) : Table :=
  setColVals t c (tier2Fill (tier1Fill (colList t "vendor") (colList t c)))

/-- One turn of the imputation loop: absent columns are skipped, and
`df.groupby("vendor")` raises `KeyError` when no `vendor` column exists,
which the source does not guard against. -/
def imputeCol (t : Table) (c : String) : Except String Table :=
  if c ∈ t.cols then
    (if "vendor" ∈ t.cols then Except.ok (fillColumn t c)
     else Except.error "KeyError: vendor")
  else Except.ok t

/-- Lines 102-108: the imputation loop; the unguarded `groupby` is the
only way the pipeline can fail. -/
def imputeStep (t : Table) : Except String Table :=
  numCols.foldlM imputeCol t

/-- The categorical columns of line 111. -/
def catCols : List String :=
  ["vendor", "model", "cpu", "storage_type", "os_version", "location", "status"]

/-- Lines 111-114: empty string becomes NaN, then NaN becomes
`"unknown"`. -/
def catFillCell (v : Cell) : Cell :=
  match v with
  | .str s => if s = "" then .str "unknown" else .str s
  | .na => .str "unknown"
  | v => v

/-- Lines 110-114: categorical imputation. -/
def catImputeStep (t : Table) : Table :=
  catCols.foldl (stepMapCol (fun _ => catFillCell)) t

/-- The four capped columns of line 117. -/
def capCols : List String :=
  ["cpu_temp_max", "gpu_temp_max", "battery_cycle", "uptime_hours_7d"]

/-- One guarded capping step. -/
def stepCap (t : Table) (c : String) : Table :=
  if c ∈ t.cols then capColumn t c else t

/-- Lines 116-119: outlier capping. -/
def capStep (t : Table) : Table :=
  capCols.foldl stepCap t

/- ### Feature derivation (lines 121-149) -/

/-- Line 122: `today = pd.Timestamp("2025-08-13")`, as days since
1970-01-01. -/
def todayTs : ℤ := daysFromCivil 2025 8 13

/-- numpy's round-half-to-even on a rational, to an integer. -/
def roundHalfEven (x : ℚ) : ℤ :=
  let f := ⌊x⌋
  if x - (f : ℚ) < 1 / 2 then f
  else if (1 : ℚ) / 2 < x - (f : ℚ) then f + 1
  else if f % 2 = 0 then f else f + 1

/-- `round(x, 1)` in numpy: half-to-even at one decimal. -/
def round1 (q : ℚ) : ℚ := ((roundHalfEven (q * 10) : ℤ) : ℚ) / 10

/-- Lines 124-125: `(today - purchase_date).dt.days` then
`.clip(lower=0)`; NaT propagates to NaN. -/
def ageDaysCell (v : Cell) : Cell :=
  match v with
  | .date p => .num (max 0 ((todayTs - p : ℤ) : ℚ))
  | _ => .na

/-- Line 126: `age_months = (age_days / 30.0).round(1)`. -/
def ageMonthsCell (v : Cell) : Cell :=
  match v with
  | .num d => .num (round1 (d / 30))
  | _ => .na

/-- Line 131: `(today <= warranty_end).astype(int)`; comparison with NaT
is False, giving 0. -/
def warrantyCell (v : Cell) : Cell :=
  match v with
  | .date w => if todayTs ≤ w then .num 1 else .num 0
  | _ => .num 0

/-- Float division of two cells, with IEEE semantics for a zero
denominator: `x/0` is `+inf` for positive `x`, `-inf` for negative `x`,
and NaN for `0/0`; NaN propagates. -/
def divCell : Cell → Cell → Cell
  | .num x, .num y =>
      if y = 0 then (if 0 < x then .pinf else if x < 0 then .ninf else .na)
      else .num (x / y)
  | _, _ => .na

/-- `Series.clip(upper=hi)`: `+inf` clamps to `hi`, NaN and `-inf` pass
through. -/
def clipUpperCell (hi : ℚ) (v : Cell) : Cell :=
  match v with
  | .num q => .num (min q hi)
  | .pinf => .num hi
  | v => v

/-- Line 137: `(battery_full_cap / battery_design_cap).clip(upper=1.2)`. -/
def batteryHealthCell (full design : Cell) : Cell :=
  clipUpperCell (6 / 5) (divCell full design)

/-- `astype(str)` of a cell for the substring flags; NaN prints as
`"nan"` (the columns reaching these flags hold strings). -/
def cellAsStr (v : Cell) : String :=
  match v with
  | .str s => s
  | _ => "nan"

/-- Line 142: `storage_type.astype(str).str.upper().str.contains("NVME")`. -/
def nvmeCell (v : Cell) : Cell :=
  if strContains ⟨(cellAsStr v).toList.map Char.toUpper⟩ "NVME" then .num 1 else .num 0

/-- Line 147: `os_version.astype(str).str.lower().str.contains("macos")`. -/
def macCell (v : Cell) : Cell :=
  if strContains ⟨(cellAsStr v).toList.map Char.toLower⟩ "macos" then .num 1 else .num 0

/-- Lines 123-128: the age features; when `purchase_date` is absent only
a null `age_months` column is created. -/
def deriveAge (t : Table) : Table :=
  if "purchase_date" ∈ t.cols then
    setColByRow (setColByRow t "age_days" (fun r => ageDaysCell (getCell r "purchase_date")))
      "age_months" (fun r => ageMonthsCell (getCell r "age_days"))
  else setColByRow t "age_months" (fun _ => .na)

/-- Lines 130-133: `in_warranty`. -/
def deriveWarranty (t : Table) : Table :=
  if "warranty_end" ∈ t.cols then
    setColByRow t "in_warranty" (fun r => warrantyCell (getCell r "warranty_end"))
  else setColByRow t "in_warranty" (fun _ => .num 0)

/-- Lines 135-139: `battery_health`. -/
def deriveBattery (t : Table) : Table :=
  if "battery_full_cap" ∈ t.cols ∧ "battery_design_cap" ∈ t.cols then
    setColByRow t "battery_health"
      (fun r => batteryHealthCell (getCell r "battery_full_cap") (getCell r "battery_design_cap"))
  else setColByRow t "battery_health" (fun _ => .na)

/-- Lines 141-144: `is_nvme`. -/
def deriveNvme (t : Table) : Table :=
  if "storage_type" ∈ t.cols then
    setColByRow t "is_nvme" (fun r => nvmeCell (getCell r "storage_type"))
  else setColByRow t "is_nvme" (fun _ => .num 0)

/-- Lines 146-149: `is_mac`. -/
def deriveMac (t : Table) : Table :=
  if "os_version" ∈ t.cols then
    setColByRow t "is_mac" (fun r => macCell (getCell r "os_version"))
  else setColByRow t "is_mac" (fun _ => .num 0)

/-- Lines 121-149: the feature deriver, in source order. -/
def deriveStep (t : Table) : Table :=
  deriveMac (deriveNvme (deriveBattery (deriveWarranty (deriveAge t))))

/-- The whole cleaning pipeline, from raw table to the full clean table
(Output A); the only possible failure is the unguarded
`groupby("vendor")` of the imputation loop. -/
def pipeline (t : Table) : Except String Table :=
  (imputeStep (preImpute t)).map (fun t2 => deriveStep (capStep (catImputeStep t2)))

/-- The table of an `ok` outcome (a placeholder empty table otherwise);
used by concrete witnesses to name pipeline outputs. -/
def okT (e : Except String Table) : Table :=
  match e with
  | .ok t => t
  | .error _ => ⟨[], []⟩

/- ### Basic row / column lemmas -/

theorem getCell_setCellRow_self (r : Row) (c : String) (v : Cell) :
    getCell (setCellRow r c v) c = v := by
  simp [setCellRow, getCell]

theorem getCell_filter_ne (r : Row) (c c' : String) (h : c' ≠ c) :
    getCell (r.filter (fun kv => decide (kv.1 ≠ c))) c' = getCell r c' := by
  induction r with
  | nil => rfl
  | cons kv rest ih =>
      rw [List.filter_cons]
      by_cases hk : kv.1 = c
      · have hd : (decide (kv.1 ≠ c)) = false := by simp [hk]
        have hne : ¬ (kv.1 = c') := by rw [hk]; exact fun hh => h hh.symm
        rw [hd, if_neg (by simp)]
        rw [ih]
        conv_rhs => rw [getCell, if_neg hne]
      · have hd : (decide (kv.1 ≠ c)) = true := by simp [hk]
        rw [hd, if_pos rfl]
        by_cases hv : kv.1 = c'
        · rw [getCell, if_pos hv]
          conv_rhs => rw [getCell, if_pos hv]
        · rw [getCell, if_neg hv, ih]
          conv_rhs => rw [getCell, if_neg hv]

theorem getCell_setCellRow_ne (r : Row) (c c' : String) (v : Cell) (h : c' ≠ c) :
    getCell (setCellRow r c v) c' = getCell r c' := by
  have hne : ¬ (c = c') := fun hh => h hh.symm
  simp only [setCellRow, getCell]
  rw [if_neg hne]
  exact getCell_filter_ne r c c' h

theorem colList_setColByRow_self (t : Table) (c : String) (f : Row → Cell) :
    colList (setColByRow t c f) c = t.rows.map f := by
  simp [colList, setColByRow, List.map_map, Function.comp, getCell_setCellRow_self]

theorem colList_setColByRow_ne (t : Table) (c c' : String) (f : Row → Cell) (h : c' ≠ c) :
    colList (setColByRow t c f) c' = colList t c' := by
  simp [colList, setColByRow, List.map_map, Function.comp, getCell_setCellRow_ne _ _ _ _ h]

theorem colList_mapColTable_self (t : Table) (c : String) (f : Cell → Cell) :
    colList (mapColTable t c f) c = (colList t c).map f := by
  unfold mapColTable
  rw [colList_setColByRow_self, colList, List.map_map]
  rfl

theorem colList_mapColTable_ne (t : Table) (c c' : String) (f : Cell → Cell) (h : c' ≠ c) :
    colList (mapColTable t c f) c' = colList t c' :=
  colList_setColByRow_ne t c c' _ h

theorem cols_setColByRow_of_mem {t : Table} {c : String} (f : Row → Cell) (h : c ∈ t.cols) :
    (setColByRow t c f).cols = t.cols := by
  simp [setColByRow, h]

theorem mem_cols_setColByRow_iff (t : Table) (c c' : String) (f : Row → Cell) :
    c' ∈ (setColByRow t c f).cols ↔ c' ∈ t.cols ∨ c' = c := by
  by_cases h : c ∈ t.cols
  · simp [setColByRow, h]
    intro he; rw [he]; exact h
  · simp [setColByRow, h]

theorem length_rows_setColByRow (t : Table) (c : String) (f : Row → Cell) :
    (setColByRow t c f).rows.length = t.rows.length := by
  simp [setColByRow]

theorem zipSet_col_self (c : String) :
    ∀ (rows : List Row) (vs : List Cell), rows.length = vs.length →
      ((rows.zip vs).map (fun p => setCellRow p.1 c p.2)).map (fun r => getCell r c) = vs := by
  intro rows
  induction rows with
  | nil =>
      intro vs h
      cases vs with
      | nil => rfl
      | cons v vt => simp at h
  | cons r rest ih =>
      intro vs h
      cases vs with
      | nil => simp at h
      | cons v vt =>
          simp only [List.zip_cons_cons, List.map_cons, getCell_setCellRow_self]
          rw [ih vt (by simpa using h)]

theorem zipSet_col_ne (c c' : String) (h : c' ≠ c) :
    ∀ (rows : List Row) (vs : List Cell), rows.length = vs.length →
      ((rows.zip vs).map (fun p => setCellRow p.1 c p.2)).map (fun r => getCell r c') =
      rows.map (fun r => getCell r c') := by
  intro rows
  induction rows with
  | nil => intro vs _; simp
  | cons r rest ih =>
      intro vs hlen
      cases vs with
      | nil => simp at hlen
      | cons v vt =>
          simp only [List.zip_cons_cons, List.map_cons, getCell_setCellRow_ne _ _ _ _ h]
          rw [ih vt (by simpa using hlen)]

theorem length_colList (t : Table) (c : String) : (colList t c).length = t.rows.length := by
  simp [colList]

theorem colList_setColVals_self (t : Table) (c : String) (vs : List Cell)
    (h : vs.length = t.rows.length) :
    colList (setColVals t c vs) c = vs := by
  simp only [colList, setColVals]
  exact zipSet_col_self c t.rows vs h.symm

theorem colList_setColVals_ne (t : Table) (c c' : String) (vs : List Cell)
    (hlen : vs.length = t.rows.length) (h : c' ≠ c) :
    colList (setColVals t c vs) c' = colList t c' := by
  simp only [colList, setColVals]
  exact zipSet_col_ne c c' h t.rows vs hlen.symm

theorem cols_setColVals_of_mem {t : Table} {c : String} (vs : List Cell) (h : c ∈ t.cols) :
    (setColVals t c vs).cols = t.cols := by
  simp [setColVals, h]

theorem length_rows_setColVals (t : Table) (c : String) (vs : List Cell)
    (h : vs.length = t.rows.length) :
    (setColVals t c vs).rows.length = t.rows.length := by
  simp [setColVals, h]

/- ### Stage algebra: columns, lengths, untouched columns -/

theorem cols_stepMapCol (g : String → Cell → Cell) (t : Table) (c : String) :
    (stepMapCol g t c).cols = t.cols := by
  unfold stepMapCol mapColTable
  split_ifs with h
  · exact cols_setColByRow_of_mem _ h
  · rfl

theorem cols_foldl_stepMapCol (g : String → Cell → Cell) :
    ∀ (L : List String) (t : Table), (L.foldl (stepMapCol g) t).cols = t.cols := by
  intro L
  induction L with
  | nil => intro t; rfl
  | cons c L ih => intro t; rw [List.foldl_cons, ih, cols_stepMapCol]

theorem colList_stepMapCol_ne (g : String → Cell → Cell) (t : Table) (c c' : String)
    (h : c' ≠ c) : colList (stepMapCol g t c) c' = colList t c' := by
  unfold stepMapCol
  split_ifs with hm
  · exact colList_mapColTable_ne t c c' _ h
  · rfl

theorem colList_foldl_stepMapCol_ne (g : String → Cell → Cell) :
    ∀ (L : List String) (t : Table) (c' : String), c' ∉ L →
      colList (L.foldl (stepMapCol g) t) c' = colList t c' := by
  intro L
  induction L with
  | nil => intro t c' _; rfl
  | cons c L ih =>
      intro t c' h
      rw [List.foldl_cons, ih _ _ (fun hh => h (List.mem_cons_of_mem _ hh)),
        colList_stepMapCol_ne _ _ _ _ (fun hh => h (by rw [hh]; exact List.mem_cons_self c L))]

theorem length_rows_stepMapCol (g : String → Cell → Cell) (t : Table) (c : String) :
    (stepMapCol g t c).rows.length = t.rows.length := by
  unfold stepMapCol mapColTable
  split_ifs
  · exact length_rows_setColByRow _ _ _
  · rfl

theorem length_rows_foldl_stepMapCol (g : String → Cell → Cell) :
    ∀ (L : List String) (t : Table), (L.foldl (stepMapCol g) t).rows.length = t.rows.length := by
  intro L
  induction L with
  | nil => intro t; rfl
  | cons c L ih => intro t; rw [List.foldl_cons, ih, length_rows_stepMapCol]

theorem exceptBind_ok {α : Type} (a : Table) (k : Table → Except String α) :
    (Except.ok a >>= k : Except String α) = k a := rfl

theorem exceptBind_error {α : Type} (e : String) (k : Table → Except String α) :
    ((Except.error e : Except String Table) >>= k) = Except.error e := rfl

theorem length_tier1Fill (vcol col : List Cell) (h : vcol.length = col.length) :
    (tier1Fill vcol col).length = col.length := by
  simp [tier1Fill, List.length_zip, h]

theorem length_tier2Fill (xs : List Cell) : (tier2Fill xs).length = xs.length := by
  unfold tier2Fill
  cases medianQ (nonNulls xs) <;> simp

theorem length_fillVals (t : Table) (c : String) :
    (tier2Fill (tier1Fill (colList t "vendor") (colList t c))).length = t.rows.length := by
  rw [length_tier2Fill, length_tier1Fill _ _ (by rw [length_colList, length_colList]),
    length_colList]

theorem length_rows_fillColumn (t : Table) (c : String) :
    (fillColumn t c).rows.length = t.rows.length :=
  length_rows_setColVals t c _ (length_fillVals t c)

theorem cols_fillColumn {t : Table} {c : String} (h : c ∈ t.cols) :
    (fillColumn t c).cols = t.cols :=
  cols_setColVals_of_mem _ h

theorem colList_fillColumn_self (t : Table) (c : String) :
    colList (fillColumn t c) c = tier2Fill (tier1Fill (colList t "vendor") (colList t c)) :=
  colList_setColVals_self t c _ (length_fillVals t c)

theorem colList_fillColumn_ne (t : Table) (c c' : String) (h : c' ≠ c) :
    colList (fillColumn t c) c' = colList t c' :=
  colList_setColVals_ne t c c' _ (length_fillVals t c) h

theorem cols_imputeCol {t t1 : Table} {c : String} (h : imputeCol t c = .ok t1) :
    t1.cols = t.cols := by
  unfold imputeCol at h
  split_ifs at h with h1 h2
  · cases h; exact cols_fillColumn h1
  · cases h; rfl

theorem length_rows_imputeCol {t t1 : Table} {c : String} (h : imputeCol t c = .ok t1) :
    t1.rows.length = t.rows.length := by
  unfold imputeCol at h
  split_ifs at h with h1 h2
  · cases h; exact length_rows_fillColumn t c
  · cases h; rfl

theorem colList_imputeCol_ne {t t1 : Table} {c : String} (c' : String)
    (h : imputeCol t c = .ok t1) (hne : c' ≠ c) : colList t1 c' = colList t c' := by
  unfold imputeCol at h
  split_ifs at h with h1 h2
  · cases h; exact colList_fillColumn_ne t c c' hne
  · cases h; rfl

theorem cols_foldlM_imputeCol :
    ∀ (L : List String) (t t2 : Table), L.foldlM imputeCol t = .ok t2 → t2.cols = t.cols := by
  intro L
  induction L with
  | nil => intro t t2 h; cases h; rfl
  | cons c L ih =>
      intro t t2 h
      rw [List.foldlM_cons] at h
      cases himp : imputeCol t c with
      | error e => rw [himp, exceptBind_error] at h; cases h
      | ok t1 => rw [himp, exceptBind_ok] at h; rw [ih t1 t2 h, cols_imputeCol himp]

theorem length_rows_foldlM_imputeCol :
    ∀ (L : List String) (t t2 : Table), L.foldlM imputeCol t = .ok t2 →
      t2.rows.length = t.rows.length := by
  intro L
  induction L with
  | nil => intro t t2 h; cases h; rfl
  | cons c L ih =>
      intro t t2 h
      rw [List.foldlM_cons] at h
      cases himp : imputeCol t c with
      | error e => rw [himp, exceptBind_error] at h; cases h
      | ok t1 => rw [himp, exceptBind_ok] at h; rw [ih t1 t2 h, length_rows_imputeCol himp]

theorem colList_foldlM_imputeCol_ne :
    ∀ (L : List String) (t t2 : Table) (c' : String), c' ∉ L →
      L.foldlM imputeCol t = .ok t2 → colList t2 c' = colList t c' := by
  intro L
  induction L with
  | nil => intro t t2 c' _ h; cases h; rfl
  | cons c L ih =>
      intro t t2 c' hnm h
      rw [List.foldlM_cons] at h
      cases himp : imputeCol t c with
      | error e => rw [himp, exceptBind_error] at h; cases h
      | ok t1 =>
          rw [himp, exceptBind_ok] at h
          rw [ih t1 t2 c' (fun hh => hnm (List.mem_cons_of_mem _ hh)) h,
            colList_imputeCol_ne c' himp
              (fun hh => hnm (by rw [hh]; exact List.mem_cons_self c L))]

/- ### Whole-stage bookkeeping: lengths and columns -/

theorem length_rows_trimStep (t : Table) : (trimStep t).rows.length = t.rows.length := by
  simp [trimStep]

theorem length_rows_vendorStep (t : Table) : (vendorStep t).rows.length = t.rows.length := by
  unfold vendorStep mapColTable
  split_ifs
  · exact length_rows_setColByRow _ _ _
  · rfl

theorem length_rows_modelStep (t : Table) : (modelStep t).rows.length = t.rows.length := by
  unfold modelStep mapColTable
  split_ifs
  · exact length_rows_setColByRow _ _ _
  · rfl

theorem length_rows_sanityStep (t : Table) : (sanityStep t).rows.length = t.rows.length := by
  unfold sanityStep mapColTable
  rw [length_rows_foldl_stepMapCol]
  split_ifs
  · exact length_rows_setColByRow _ _ _
  · rfl

theorem length_rows_preImpute (t : Table) :
    (preImpute t).rows.length = (dedupStep t).rows.length := by
  unfold preImpute dateStep numStep ingestStage
  rw [length_rows_sanityStep, length_rows_foldl_stepMapCol, length_rows_modelStep,
    length_rows_vendorStep, length_rows_foldl_stepMapCol, length_rows_trimStep]

theorem length_rows_capColumn (t : Table) (c : String) :
    (capColumn t c).rows.length = t.rows.length := by
  unfold capColumn mapColTable
  split_ifs
  · cases nonNulls (colList t c)
    · rfl
    · exact length_rows_setColByRow _ _ _
  · rfl

theorem length_rows_stepCap (t : Table) (c : String) :
    (stepCap t c).rows.length = t.rows.length := by
  unfold stepCap
  split_ifs
  · exact length_rows_capColumn _ _
  · rfl

theorem length_rows_capStep (t : Table) : (capStep t).rows.length = t.rows.length := by
  have haux : ∀ (L : List String) (u : Table),
      (L.foldl stepCap u).rows.length = u.rows.length := by
    intro L
    induction L with
    | nil => intro u; rfl
    | cons c L ih => intro u; rw [List.foldl_cons, ih, length_rows_stepCap]
  exact haux capCols t

theorem length_rows_deriveStep (u : Table) : (deriveStep u).rows.length = u.rows.length := by
  unfold deriveStep deriveMac deriveNvme deriveBattery deriveWarranty deriveAge
  split_ifs <;> simp [length_rows_setColByRow]

theorem except_map_ok {α : Type} {f : Table → α} {e : Except String Table} {b : α}
    (h : e.map f = .ok b) : ∃ a, e = .ok a ∧ b = f a := by
  cases e with
  | error err => simp [Except.map] at h
  | ok a =>
      refine ⟨a, rfl, ?_⟩
      simpa [Except.map] using h.symm

/-- The pipeline, decomposed at the imputation stage. -/
theorem pipeline_ok_decompose {t t2 : Table} (h : pipeline t = .ok t2) :
    ∃ tm, imputeStep (preImpute t) = .ok tm ∧
      t2 = deriveStep (capStep (catImputeStep tm)) := by
  unfold pipeline at h
  exact except_map_ok h

theorem length_rows_catImputeStep (t : Table) :
    (catImputeStep t).rows.length = t.rows.length := by
  unfold catImputeStep
  exact length_rows_foldl_stepMapCol _ _ _

theorem cols_catImputeStep (t : Table) : (catImputeStep t).cols = t.cols := by
  unfold catImputeStep
  exact cols_foldl_stepMapCol _ _ _

theorem colList_catImputeStep_ne (t : Table) (c : String) (h : c ∉ catCols) :
    colList (catImputeStep t) c = colList t c := by
  unfold catImputeStep
  exact colList_foldl_stepMapCol_ne _ _ _ _ h

theorem length_rows_imputeStep {t t2 : Table} (h : imputeStep t = .ok t2) :
    t2.rows.length = t.rows.length := by
  unfold imputeStep at h
  exact length_rows_foldlM_imputeCol _ _ _ h

theorem cols_imputeStep {t t2 : Table} (h : imputeStep t = .ok t2) :
    t2.cols = t.cols := by
  unfold imputeStep at h
  exact cols_foldlM_imputeCol _ _ _ h

theorem colList_imputeStep_ne {t t2 : Table} (c : String) (h : imputeStep t = .ok t2)
    (hc : c ∉ numCols) : colList t2 c = colList t c := by
  unfold imputeStep at h
  exact colList_foldlM_imputeCol_ne _ _ _ _ hc h

theorem length_rows_pipeline (t t2 : Table) (h : pipeline t = .ok t2) :
    t2.rows.length = (dedupStep t).rows.length := by
  obtain ⟨tm, himp, hrfl⟩ := pipeline_ok_decompose h
  rw [hrfl, length_rows_deriveStep, length_rows_capStep, length_rows_catImputeStep,
    length_rows_imputeStep himp, length_rows_preImpute]

theorem cols_vendorStep (t : Table) : (vendorStep t).cols = t.cols := by
  unfold vendorStep mapColTable
  split_ifs with h
  · exact cols_setColByRow_of_mem _ h
  · rfl

theorem cols_modelStep (t : Table) : (modelStep t).cols = t.cols := by
  unfold modelStep mapColTable
  split_ifs with h
  · exact cols_setColByRow_of_mem _ h
  · rfl

theorem cols_sanityStep (t : Table) : (sanityStep t).cols = t.cols := by
  unfold sanityStep mapColTable
  rw [cols_foldl_stepMapCol]
  split_ifs with h
  · exact cols_setColByRow_of_mem _ h
  · rfl

theorem cols_preImpute (t : Table) : (preImpute t).cols = (ingestStage t).cols := by
  unfold preImpute dateStep numStep
  rw [cols_sanityStep, cols_foldl_stepMapCol, cols_modelStep, cols_vendorStep,
    cols_foldl_stepMapCol]

theorem cols_capColumn (t : Table) (c : String) (h : c ∈ t.cols) :
    (capColumn t c).cols = t.cols := by
  unfold capColumn mapColTable
  split_ifs
  · cases nonNulls (colList t c)
    · rfl
    · exact cols_setColByRow_of_mem _ h
  · rfl

theorem cols_stepCap (t : Table) (c : String) : (stepCap t c).cols = t.cols := by
  unfold stepCap
  split_ifs with h
  · exact cols_capColumn _ _ h
  · rfl

theorem cols_capStep (t : Table) : (capStep t).cols = t.cols := by
  have haux : ∀ (L : List String) (u : Table), (L.foldl stepCap u).cols = u.cols := by
    intro L
    induction L with
    | nil => intro u; rfl
    | cons c L ih => intro u; rw [List.foldl_cons, ih, cols_stepCap]
  exact haux capCols t

/- ### Claims C2, C3, C4, C5, C8 -/

/-- Modelled from the spec: the ingestion order the spec describes for
claim C3 — trim the headers first, deduplicate second. -/
def specIngestStage (t : Table) : Table := dedupStep (trimStep t)

/-- A table whose `asset_id` header carries surrounding whitespace, with
two rows sharing the same identifier. -/
def exC3 : Table :=
  ⟨[" asset_id "], [[(" asset_id ", .str "A")], [(" asset_id ", .str "A")]]⟩

/-- Claim C3, counterexample: the source deduplicates before trimming the
headers, so a whitespace-padded `asset_id` header is NOT deduplicated (two
rows survive), while the spec's trim-first order would leave one row. -/
theorem C3_counterexample :
    (ingestStage exC3).rows.length = 2 ∧ (specIngestStage exC3).rows.length = 1 := by
  decide

/-- Claim C3, amended: the ingestion stage deduplicates first, keyed on
the raw (untrimmed) `asset_id` header, and only then strips whitespace
from every column identifier; when no column is named exactly `asset_id`,
deduplication is skipped without error and the rows are only re-keyed by
the header trim. -/
theorem C3_ingest_order (t : Table) :
    ("asset_id" ∉ t.cols → (ingestStage t).rows = t.rows.map trimKeys) ∧
    ("asset_id" ∈ t.cols → (ingestStage t).rows = (dedupLast t.rows).map trimKeys) := by
  constructor <;> intro h <;> simp [ingestStage, dedupStep, trimStep, h]

/-- Witness for C3: the padded-header table is only re-keyed, not
deduplicated. -/
theorem C3_witness : (ingestStage exC3).rows = exC3.rows.map trimKeys :=
  (C3_ingest_order exC3).1 (by decide)

/-- A table with a numeric telemetry column but no `vendor` column. -/
def exC4 : Table :=
  ⟨["asset_id", "ram_gb"], [[("asset_id", .str "A1"), ("ram_gb", .str "8")]]⟩

/-- Claim C4 (code bug): on a table that has a numeric telemetry column
but no `vendor` column, the unguarded `df.groupby("vendor")` of the
imputation loop raises `KeyError`, so an exception does escape the
pipeline on a dirty input the spec requires it to survive. -/
theorem C4_missing_vendor_keyerror :
    pipeline exC4 = Except.error "KeyError: vendor" := by
  rfl

/-- The canonical vendor names the normalizer can produce, plus the
sentinel. -/
def canonicalVendors : List String :=
  ["Lenovo", "Dell", "HP", "Apple", "Asus", "Acer", "MSI", "unknown"]

theorem lookupAssoc_mem {α : Type} :
    ∀ (m : List (String × α)) (s : String) (v : α),
      lookupAssoc m s = some v → v ∈ m.map Prod.snd := by
  intro m
  induction m with
  | nil => intro s v h; cases h
  | cons kv rest ih =>
      intro s v h
      by_cases hk : kv.1 = s
      · simp only [lookupAssoc, hk, if_pos] at h
        cases kv
        simp_all
      · simp only [lookupAssoc, hk, if_neg, not_false_iff] at h
        exact List.mem_cons_of_mem _ (ih s v h)

/-- Claim C5, counterexample: the source strips spaces but not hyphens,
so the spec's example input `" D-e-l-l "` fails the exact-match lookup and
maps to `"unknown"`, not to `"Dell"`. -/
theorem C5_counterexample :
    normVendorStr " D-e-l-l " = "unknown" ∧ normVendorStr " D-e-l-l " ≠ "Dell" := by
  decide

/-- Claim C5, amended: vendor normalization lower-cases, strips
leading/trailing whitespace and internal spaces (hyphens are kept), then
exact-matches against the canonical table; every output is one of the
canonical names or `"unknown"`; `" D-e-l-l "` keeps its hyphens, fails
the lookup and maps to `"unknown"` (a spaced `" D e l l "` does map to
`"Dell"`); `"Huawei"` maps to `"unknown"`; an absent vendor propagates as
null through the normalizer and becomes `"unknown"` at categorical
imputation. -/
theorem getD_lookup_mem (m : List (String × String)) (d s : String)
    (target : List String) (hd : d ∈ target)
    (hsub : ∀ v ∈ m.map Prod.snd, v ∈ target) :
    (lookupAssoc m s).getD d ∈ target := by
  cases hl : lookupAssoc m s with
  | none => simpa using hd
  | some v => simpa using hsub v (lookupAssoc_mem m s v hl)

theorem C5_vendor_normalization :
    (∀ s : String, normVendorStr s ∈ canonicalVendors) ∧
    normVendorStr " D-e-l-l " = "unknown" ∧
    normVendorStr "Huawei" = "unknown" ∧
    normVendorStr " D e l l " = "Dell" ∧
    catFillCell (normalizeVendorCell .na) = .str "unknown" := by
  refine ⟨?_, by decide, by decide, by decide, by decide⟩
  intro s
  unfold normVendorStr
  exact getD_lookup_mem vendorMapping "unknown" _ canonicalVendors (by decide) (by decide)

/-- Modelled from the spec: the character strip claim C8 describes, where
only a LEADING minus sign survives. -/
def specKeepFilter (cs : List Char) : List Char :=
  match cs with
  | '-' :: rest => '-' :: rest.filter (fun c => c.isDigit || decide (c = '.'))
  | _ => cs.filter (fun c => c.isDigit || decide (c = '.'))

/-- Modelled from the spec: numeric coercion as claim C8 words it (strip
commas, strip em-dashes, keep digits, the decimal point and a leading
minus only, reject leftovers, parse). -/
def toNumberSpecStr (x : String) : Option ℚ :=
  let s1 := stripList x.toList
  let s2 := s1.filter (fun c => decide (c ≠ ','))
  let s3 := s2.filter (fun c => decide (c ≠ '—'))
  let s4 := specKeepFilter s3
  if s4 = [] ∨ s4 = ['-'] ∨ s4 = ['-', '-'] then none else parseFloat? s4

/-- Claim C8, counterexample: the source keeps every minus sign, so
`"3-4"` fails `float()` and coerces to null, while the spec's
leading-minus-only strip would produce `34`. -/
theorem C8_counterexample :
    toNumberStr "3-4" = none ∧ toNumberSpecStr "3-4" = some 34 :=
  of_decide_eq_true (by with_unfolding_all rfl)

/-- The amended reading of the numeric coercion: one character strip that
keeps digits, the decimal point and every minus sign (commas and
em-dashes fall out of it), then the leftover check and the parse. -/
def toNumberAmendedStr (x : String) : Option ℚ :=
  let s4 := (stripList x.toList).filter
    (fun c => c.isDigit || decide (c = '.') || decide (c = '-'))
  if s4 = [] ∨ s4 = ['-'] ∨ s4 = ['-', '-'] then none else parseFloat? s4

theorem filter_filter_subsumed (p q : Char → Bool) (hpq : ∀ c, p c = true → q c = true) :
    ∀ cs : List Char, (cs.filter q).filter p = cs.filter p := by
  intro cs
  induction cs with
  | nil => rfl
  | cons c t ih =>
      rw [List.filter_cons, List.filter_cons]
      by_cases hq : q c = true
      · rw [if_pos hq, List.filter_cons]
        simp only [ih]
      · rw [if_neg hq, ih]
        have hp : ¬ p c = true := fun hp => hq (hpq c hp)
        rw [if_neg hp]

/-- The code's character strip keeps minus signs wherever they occur, and
the comma / em-dash removals are subsumed by it. -/
theorem filter_keep_collapse :
    ∀ cs : List Char,
      (((cs.filter (fun c => decide (c ≠ ','))).filter (fun c => decide (c ≠ '—'))).filter
        (fun c => c.isDigit || decide (c = '.') || decide (c = '-')))
      = cs.filter (fun c => c.isDigit || decide (c = '.') || decide (c = '-')) := by
  intro cs
  rw [filter_filter_subsumed _ _ ?hem, filter_filter_subsumed _ _ ?hcomma]
  case hem =>
    intro c hc
    by_cases h : c = '—'
    · subst h; exact absurd hc (by decide)
    · simp [h]
  case hcomma =>
    intro c hc
    by_cases h : c = ','
    · subst h; exact absurd hc (by decide)
    · simp [h]

/-- Claim C8, amended: numeric coercion strips surrounding whitespace,
commas and em-dashes, keeps every digit, decimal point and minus sign
(minus signs are retained wherever they occur, so an internal minus makes
the parse fail and yields null; the comma and em-dash removals are
subsumed by the character strip), rejects a remaining empty/`"-"`/`"--"`
string, then parses; `"1,024 MB"` coerces to `1024` and `"--"` (and
`"3-4"`) to null. -/
theorem C8_to_number :
    (∀ x : String, toNumberStr x = toNumberAmendedStr x) ∧
    toNumberStr "1,024 MB" = some 1024 ∧
    toNumberStr "--" = none ∧
    toNumberStr "3-4" = none := by
  refine ⟨?_, of_decide_eq_true (by with_unfolding_all rfl),
    of_decide_eq_true (by with_unfolding_all rfl),
    of_decide_eq_true (by with_unfolding_all rfl)⟩
  intro x
  simp only [toNumberStr, toNumberAmendedStr, filter_keep_collapse]

theorem mem_cols_deriveAge (u : Table) (c : String) (h1 : c ≠ "age_days")
    (h2 : c ≠ "age_months") : c ∈ (deriveAge u).cols ↔ c ∈ u.cols := by
  unfold deriveAge
  split_ifs <;> simp [mem_cols_setColByRow_iff, h1, h2]

theorem mem_cols_deriveWarranty (u : Table) (c : String) (h : c ≠ "in_warranty") :
    c ∈ (deriveWarranty u).cols ↔ c ∈ u.cols := by
  unfold deriveWarranty
  split_ifs <;> simp [mem_cols_setColByRow_iff, h]

theorem mem_cols_deriveBattery (u : Table) (c : String) (h : c ≠ "battery_health") :
    c ∈ (deriveBattery u).cols ↔ c ∈ u.cols := by
  unfold deriveBattery
  split_ifs <;> simp [mem_cols_setColByRow_iff, h]

theorem mem_cols_deriveNvme (u : Table) (c : String) (h : c ≠ "is_nvme") :
    c ∈ (deriveNvme u).cols ↔ c ∈ u.cols := by
  unfold deriveNvme
  split_ifs <;> simp [mem_cols_setColByRow_iff, h]

theorem mem_cols_deriveMac (u : Table) (c : String) (h : c ≠ "is_mac") :
    c ∈ (deriveMac u).cols ↔ c ∈ u.cols := by
  unfold deriveMac
  split_ifs <;> simp [mem_cols_setColByRow_iff, h]

theorem colList_deriveWarranty_ne (u : Table) (c : String) (h : c ≠ "in_warranty") :
    colList (deriveWarranty u) c = colList u c := by
  unfold deriveWarranty
  split_ifs <;> exact colList_setColByRow_ne _ _ _ _ h

theorem colList_deriveBattery_ne (u : Table) (c : String) (h : c ≠ "battery_health") :
    colList (deriveBattery u) c = colList u c := by
  unfold deriveBattery
  split_ifs <;> exact colList_setColByRow_ne _ _ _ _ h

theorem colList_deriveNvme_ne (u : Table) (c : String) (h : c ≠ "is_nvme") :
    colList (deriveNvme u) c = colList u c := by
  unfold deriveNvme
  split_ifs <;> exact colList_setColByRow_ne _ _ _ _ h

theorem colList_deriveMac_ne (u : Table) (c : String) (h : c ≠ "is_mac") :
    colList (deriveMac u) c = colList u c := by
  unfold deriveMac
  split_ifs <;> exact colList_setColByRow_ne _ _ _ _ h

theorem colList_deriveAge_ne (u : Table) (c : String) (h1 : c ≠ "age_days")
    (h2 : c ≠ "age_months") : colList (deriveAge u) c = colList u c := by
  unfold deriveAge
  split_ifs
  · rw [colList_setColByRow_ne _ _ _ _ h2, colList_setColByRow_ne _ _ _ _ h1]
  · exact colList_setColByRow_ne _ _ _ _ h2

/-- When either capacity column is absent, the derived `battery_health`
column is entirely null. -/
theorem colList_deriveBattery_absent (u : Table)
    (hu : ¬ ("battery_full_cap" ∈ u.cols ∧ "battery_design_cap" ∈ u.cols)) :
    colList (deriveBattery u) "battery_health" = u.rows.map (fun _ => Cell.na) := by
  unfold deriveBattery
  rw [if_neg hu]
  exact colList_setColByRow_self _ _ _

/-- Claim C2, counterexample: a zero `battery_design_cap` under a
positive `battery_full_cap` divides to `+inf`, which `clip(upper=1.2)`
turns into `1.2` — not into null as the claim states. -/
theorem C2_counterexample :
    batteryHealthCell (.num 45) (.num 0) = .num (6 / 5) ∧
    Cell.num (6 / 5) ≠ Cell.na :=
  of_decide_eq_true (by with_unfolding_all rfl)

/-- Claim C2, amended: `battery_health` is
`clip_upper(battery_full_cap / battery_design_cap, 1.2)` under float
semantics: null when either capacity column is absent from the schema or
either cell is null, and for a zero denominator the ratio is infinite —
clamped to `1.2` when `battery_full_cap > 0`, `-inf` when it is negative,
null only for `0/0`; the computation never throws and no finite
`battery_health` value exceeds `1.2` (nor is `+inf` ever emitted). -/
theorem C2_battery_health :
    (∀ full design : Cell, ∀ q : ℚ, batteryHealthCell full design = .num q → q ≤ 6 / 5) ∧
    (∀ full design : Cell, batteryHealthCell full design ≠ .pinf) ∧
    (∀ design : Cell, batteryHealthCell .na design = .na) ∧
    (∀ full : Cell, batteryHealthCell full .na = .na) ∧
    (∀ x : ℚ, batteryHealthCell (.num x) (.num 0) =
      (if 0 < x then .num (6 / 5) else if x < 0 then .ninf else .na)) ∧
    batteryHealthCell (.num 45) (.num 50) = .num (9 / 10) ∧
    (∀ u : Table, ("battery_full_cap" ∉ u.cols ∨ "battery_design_cap" ∉ u.cols) →
      ∀ v ∈ colList (deriveStep u) "battery_health", v = Cell.na) := by
  refine ⟨?_, ?_, ?_, ?_, ?_, of_decide_eq_true (by with_unfolding_all rfl), ?_⟩
  · intro full design q h
    cases full <;> cases design <;>
      simp only [batteryHealthCell, divCell, clipUpperCell] at h <;>
      try exact absurd h (by simp)
    split_ifs at h <;> simp only [Cell.num.injEq] at h <;> try exact absurd h (by simp)
    · rw [h.symm]
    · rw [h.symm]; exact min_le_right _ _
  · intro full design
    cases full <;> cases design <;>
      simp only [batteryHealthCell, divCell, clipUpperCell] <;> try simp
    split_ifs <;> simp
  · intro design; cases design <;> rfl
  · intro full; cases full <;> rfl
  · intro x
    simp only [batteryHealthCell, divCell, clipUpperCell, if_pos rfl]
    split_ifs <;> rfl
  · intro u hu v hv
    have hne : ¬ ("battery_full_cap" ∈ (deriveWarranty (deriveAge u)).cols ∧
        "battery_design_cap" ∈ (deriveWarranty (deriveAge u)).cols) := by
      rw [mem_cols_deriveWarranty _ _ (by decide), mem_cols_deriveWarranty _ _ (by decide),
        mem_cols_deriveAge _ _ (by decide) (by decide),
        mem_cols_deriveAge _ _ (by decide) (by decide)]
      rcases hu with h | h
      · exact fun hc => h hc.1
      · exact fun hc => h hc.2
    rw [deriveStep, colList_deriveMac_ne _ _ (by decide), colList_deriveNvme_ne _ _ (by decide),
      colList_deriveBattery_absent _ hne] at hv
    simp only [List.mem_map] at hv
    obtain ⟨r, _, hr⟩ := hv
    exact hr.symm

/- ### Claim C6: deduplication keeps exactly the last occurrence -/

/-- Filtering the deduplicated rows at any key value leaves exactly the
last input row carrying that value (and nothing when no row carries
it). -/
theorem dedupLast_filter (v : Cell) :
    ∀ rows : List Row,
      (dedupLast rows).filter (fun r => decide (getCell r "asset_id" = v)) =
      ((rows.filter (fun r => decide (getCell r "asset_id" = v))).getLast?).toList := by
  intro rows
  induction rows with
  | nil => rfl
  | cons r rs ih =>
      rw [dedupLast]
      by_cases hdup :
          rs.any (fun r2 => decide (getCell r2 "asset_id" = getCell r "asset_id")) = true
      · rw [if_pos hdup, ih, List.filter_cons]
        by_cases hr : decide (getCell r "asset_id" = v) = true
        · rw [if_pos hr]
          have hid : getCell r "asset_id" = v := of_decide_eq_true hr
          rw [List.any_eq_true] at hdup
          obtain ⟨r2, hr2mem, hr2⟩ := hdup
          have hr2id : getCell r2 "asset_id" = v := (of_decide_eq_true hr2).trans hid
          have hmem2 : r2 ∈ rs.filter (fun r2 => decide (getCell r2 "asset_id" = v)) :=
            List.mem_filter.mpr ⟨hr2mem, by rw [hr2id]; exact decide_eq_true rfl⟩
          cases hfil : rs.filter (fun r2 => decide (getCell r2 "asset_id" = v)) with
          | nil => rw [hfil] at hmem2; cases hmem2
          | cons b l2 => rw [List.getLast?_cons_cons]
        · rw [if_neg hr]
      · rw [if_neg hdup, List.filter_cons, List.filter_cons]
        by_cases hr : decide (getCell r "asset_id" = v) = true
        · rw [if_pos hr, if_pos hr]
          have hid : getCell r "asset_id" = v := of_decide_eq_true hr
          have hfil : rs.filter (fun r2 => decide (getCell r2 "asset_id" = v)) = [] := by
            rw [List.filter_eq_nil_iff]
            intro r2 hr2mem hr2
            have : getCell r2 "asset_id" = getCell r "asset_id" :=
              (of_decide_eq_true hr2).trans hid.symm
            rw [List.any_eq_true] at hdup
            exact hdup ⟨r2, hr2mem, decide_eq_true this⟩
          rw [hfil, ih, hfil]
          rfl
        · rw [if_neg hr, if_neg hr, ih]

/-- Claim C6: with an `asset_id` column present, for every identifier
value the rows of the deduplicated table that carry it are exactly the
singleton made of the LAST input row carrying it (so two input rows with
one `asset_id` leave exactly one output row, with the later row's
fields); every later pipeline stage maps or decorates rows one-to-one, so
the final output keeps exactly that one row per identifier. -/
theorem C6_dedup_keep_last (t : Table) (v : Cell) (hmem : "asset_id" ∈ t.cols) :
    ((dedupStep t).rows.filter (fun r => decide (getCell r "asset_id" = v)) =
      ((t.rows.filter (fun r => decide (getCell r "asset_id" = v))).getLast?).toList) ∧
    (∀ t2 : Table, pipeline t = Except.ok t2 →
      t2.rows.length = (dedupStep t).rows.length) := by
  constructor
  · rw [dedupStep, if_pos hmem]
    exact dedupLast_filter v t.rows
  · intro t2 h
    exact length_rows_pipeline t t2 h

/-- A concrete table with a duplicated `asset_id`. -/
def exC6 : Table :=
  ⟨["asset_id", "vendor"],
   [[("asset_id", .str "a1"), ("vendor", .str "Dell")],
    [("asset_id", .str "a2"), ("vendor", .str "HP")],
    [("asset_id", .str "a1"), ("vendor", .str "Asus")]]⟩

/-- Witness for C6: of the two rows with `asset_id = "a1"`, exactly the
later one (the Asus row) survives deduplication. -/
theorem C6_witness :
    (dedupStep exC6).rows.filter (fun r => decide (getCell r "asset_id" = .str "a1")) =
      [[("asset_id", Cell.str "a1"), ("vendor", Cell.str "Asus")]] :=
  ((C6_dedup_keep_last exC6 (.str "a1") (by decide)).1).trans (by decide)

/-- Witness for C2: a concrete in-range ratio obeys the 1.2 ceiling. -/
theorem C2_witness :
    batteryHealthCell (.num 45) (.num 50) = .num (9 / 10) ∧ (9 : ℚ) / 10 ≤ 6 / 5 :=
  ⟨of_decide_eq_true (by with_unfolding_all rfl),
   C2_battery_health.1 (.num 45) (.num 50) (9 / 10)
     (of_decide_eq_true (by with_unfolding_all rfl))⟩

/- ### Claims C9 and C10: the age features -/

/-- An `ok` outcome is the `ok` of its own payload. -/
theorem ok_of_isOk {e : Except String Table} (h : e.isOk = true) : e = .ok (okT e) := by
  cases e with
  | ok a => rfl
  | error err => simp [Except.isOk, Except.toBool] at h

/-- The table the feature deriver runs on: everything of lines 61-119. -/
def postCap (t : Table) : Table :=
  capStep (catImputeStep (okT (imputeStep (preImpute t))))

/-- A successful pipeline run is the feature deriver applied to the
post-capping table. -/
theorem pipeline_ok_postCap {t t2 : Table} (h : pipeline t = .ok t2) :
    t2 = deriveStep (postCap t) := by
  obtain ⟨tm, himp, hrfl⟩ := pipeline_ok_decompose h
  rw [hrfl]
  unfold postCap
  rw [himp]
  rfl

theorem cols_postCap {t tm : Table} (himp : imputeStep (preImpute t) = .ok tm) :
    (postCap t).cols = (ingestStage t).cols := by
  unfold postCap
  rw [himp]
  show (capStep (catImputeStep tm)).cols = _
  rw [cols_capStep, cols_catImputeStep, cols_imputeStep himp, cols_preImpute]

theorem length_rows_postCap {t tm : Table} (himp : imputeStep (preImpute t) = .ok tm) :
    (postCap t).rows.length = (dedupStep t).rows.length := by
  unfold postCap
  rw [himp]
  show (capStep (catImputeStep tm)).rows.length = _
  rw [length_rows_capStep, length_rows_catImputeStep, length_rows_imputeStep himp,
    length_rows_preImpute]

theorem colList_deriveAge_days (u : Table) (hp : "purchase_date" ∈ u.cols) :
    colList (deriveAge u) "age_days" = (colList u "purchase_date").map ageDaysCell := by
  unfold deriveAge
  rw [if_pos hp, colList_setColByRow_ne _ _ _ _ (by decide), colList_setColByRow_self,
    colList, List.map_map]
  rfl

theorem colList_deriveAge_months_present (u : Table) (hp : "purchase_date" ∈ u.cols) :
    colList (deriveAge u) "age_months" =
      (colList u "purchase_date").map (fun v => ageMonthsCell (ageDaysCell v)) := by
  unfold deriveAge
  rw [if_pos hp, colList_setColByRow_self]
  simp only [setColByRow, List.map_map, colList]
  refine List.map_congr_left ?_
  intro r _
  simp only [Function.comp]
  rw [getCell_setCellRow_self]

theorem colList_deriveAge_months_absent (u : Table) (hp : "purchase_date" ∉ u.cols) :
    colList (deriveAge u) "age_months" = u.rows.map (fun _ => Cell.na) := by
  unfold deriveAge
  rw [if_neg hp]
  exact colList_setColByRow_self _ _ _

/-- Any column other than the six derived names passes through the
feature deriver unchanged. -/
theorem colList_deriveStep_untouched (u : Table) (c : String) (h1 : c ≠ "age_days")
    (h2 : c ≠ "age_months") (h3 : c ≠ "in_warranty") (h4 : c ≠ "battery_health")
    (h5 : c ≠ "is_nvme") (h6 : c ≠ "is_mac") :
    colList (deriveStep u) c = colList u c := by
  rw [deriveStep, colList_deriveMac_ne _ _ h6, colList_deriveNvme_ne _ _ h5,
    colList_deriveBattery_ne _ _ h4, colList_deriveWarranty_ne _ _ h3,
    colList_deriveAge_ne _ _ h1 h2]

theorem colList_deriveStep_days (u : Table) (hp : "purchase_date" ∈ u.cols) :
    colList (deriveStep u) "age_days" = (colList u "purchase_date").map ageDaysCell := by
  rw [deriveStep, colList_deriveMac_ne _ _ (by decide), colList_deriveNvme_ne _ _ (by decide),
    colList_deriveBattery_ne _ _ (by decide), colList_deriveWarranty_ne _ _ (by decide),
    colList_deriveAge_days u hp]

theorem colList_deriveStep_months (u : Table) (hp : "purchase_date" ∈ u.cols) :
    colList (deriveStep u) "age_months" =
      (colList u "purchase_date").map (fun v => ageMonthsCell (ageDaysCell v)) := by
  rw [deriveStep, colList_deriveMac_ne _ _ (by decide), colList_deriveNvme_ne _ _ (by decide),
    colList_deriveBattery_ne _ _ (by decide), colList_deriveWarranty_ne _ _ (by decide),
    colList_deriveAge_months_present u hp]

theorem colList_deriveStep_months_absent (u : Table) (hp : "purchase_date" ∉ u.cols) :
    colList (deriveStep u) "age_months" = u.rows.map (fun _ => Cell.na) := by
  rw [deriveStep, colList_deriveMac_ne _ _ (by decide), colList_deriveNvme_ne _ _ (by decide),
    colList_deriveBattery_ne _ _ (by decide), colList_deriveWarranty_ne _ _ (by decide),
    colList_deriveAge_months_absent u hp]

theorem age_days_not_in_deriveStep (u : Table) (hp : "purchase_date" ∉ u.cols)
    (hd : "age_days" ∉ u.cols) : "age_days" ∉ (deriveStep u).cols := by
  rw [deriveStep]
  intro hmem
  rw [mem_cols_deriveMac _ _ (by decide), mem_cols_deriveNvme _ _ (by decide),
    mem_cols_deriveBattery _ _ (by decide), mem_cols_deriveWarranty _ _ (by decide)] at hmem
  unfold deriveAge at hmem
  rw [if_neg hp, mem_cols_setColByRow_iff] at hmem
  rcases hmem with h | h
  · exact hd h
  · exact absurd h (by decide)

/-- Claim C9: when `purchase_date` survives ingestion, the output's
`age_days` column is `max(0, as_of - purchase_date)` rowwise (so every
non-null value is nonnegative, whether the purchase date is before or
after the as-of timestamp), and `age_months` is rowwise
`round1(age_days / 30)`; when `purchase_date` is absent, `age_months` is
null on every row and no `age_days` column is produced. -/
theorem C9_age_features :
    (∀ t t2 : Table, pipeline t = .ok t2 → "purchase_date" ∈ (ingestStage t).cols →
      colList t2 "age_days" = (colList (postCap t) "purchase_date").map ageDaysCell ∧
      colList t2 "age_months" =
        (colList (postCap t) "purchase_date").map (fun v => ageMonthsCell (ageDaysCell v)) ∧
      (∀ v ∈ colList t2 "age_days", v = .na ∨ ∃ d : ℚ, 0 ≤ d ∧ v = .num d)) ∧
    (∀ p : ℤ, ageDaysCell (.date p) = .num (max 0 ((todayTs - p : ℤ) : ℚ))) ∧
    (∀ d : ℚ, ageMonthsCell (.num d) = .num (round1 (d / 30))) ∧
    (∀ t t2 : Table, pipeline t = .ok t2 → "purchase_date" ∉ (ingestStage t).cols →
      colList t2 "age_months" = (postCap t).rows.map (fun _ => Cell.na) ∧
      ("age_days" ∉ (ingestStage t).cols → "age_days" ∉ t2.cols)) := by
  refine ⟨?_, fun p => rfl, fun d => rfl, ?_⟩
  · intro t t2 h hp
    obtain ⟨tm, himp, _⟩ := pipeline_ok_decompose h
    have hrfl := pipeline_ok_postCap h
    have hpc : "purchase_date" ∈ (postCap t).cols := by
      rw [cols_postCap himp]; exact hp
    refine ⟨?_, ?_, ?_⟩
    · rw [hrfl]; exact colList_deriveStep_days _ hpc
    · rw [hrfl]; exact colList_deriveStep_months _ hpc
    · intro v hv
      rw [hrfl, colList_deriveStep_days _ hpc] at hv
      rw [List.mem_map] at hv
      obtain ⟨p, _, hpv⟩ := hv
      cases p with
      | date pd =>
          refine Or.inr ⟨max 0 ((todayTs - pd : ℤ) : ℚ), le_max_left _ _, hpv.symm⟩
      | na => exact Or.inl hpv.symm
      | str s => exact Or.inl hpv.symm
      | num q => exact Or.inl hpv.symm
      | pinf => exact Or.inl hpv.symm
      | ninf => exact Or.inl hpv.symm
  · intro t t2 h hp
    obtain ⟨tm, himp, _⟩ := pipeline_ok_decompose h
    have hrfl := pipeline_ok_postCap h
    have hpc : "purchase_date" ∉ (postCap t).cols := by
      rw [cols_postCap himp]; exact hp
    constructor
    · rw [hrfl]; exact colList_deriveStep_months_absent _ hpc
    · intro hd
      rw [hrfl]
      refine age_days_not_in_deriveStep _ hpc ?_
      rw [cols_postCap himp]
      exact hd

/-- Claim C10: with `purchase_date` present in the schema, a row whose
`purchase_date` value is null in the output has null `age_days` and null
`age_months` (not 0). -/
theorem C10_null_purchase_null_age :
    ∀ t t2 : Table, pipeline t = .ok t2 → "purchase_date" ∈ (ingestStage t).cols →
      ∀ r ∈ t2.rows, getCell r "purchase_date" = .na →
        getCell r "age_days" = .na ∧ getCell r "age_months" = .na := by
  intro t t2 h hp r hr hna
  obtain ⟨tm, himp, _⟩ := pipeline_ok_decompose h
  have hrfl := pipeline_ok_postCap h
  have hpc : "purchase_date" ∈ (postCap t).cols := by
    rw [cols_postCap himp]; exact hp
  obtain ⟨i, hi, hri⟩ := List.mem_iff_getElem.mp hr
  have hcp : colList t2 "purchase_date" = colList (postCap t) "purchase_date" := by
    rw [hrfl]
    exact colList_deriveStep_untouched _ _ (by decide) (by decide) (by decide) (by decide)
      (by decide) (by decide)
  have hcd : colList t2 "age_days" =
      (colList (postCap t) "purchase_date").map ageDaysCell := by
    rw [hrfl]; exact colList_deriveStep_days _ hpc
  have hcm : colList t2 "age_months" =
      (colList (postCap t) "purchase_date").map (fun v => ageMonthsCell (ageDaysCell v)) := by
    rw [hrfl]; exact colList_deriveStep_months _ hpc
  have hlen : i < (colList t2 "purchase_date").length := by
    rw [length_colList]; exact hi
  have hget : ∀ c : String, (colList t2 c).getD i .na = getCell r c := by
    intro c
    rw [colList, List.getD_eq_getElem _ _ (by simpa using hi), List.getElem_map]
    rw [hri]
  have hPi : (colList (postCap t) "purchase_date").getD i .na = .na := by
    rw [← hcp, hget, hna]
  have hd : getCell r "age_days" = .na := by
    rw [← hget, hcd]
    have hilen : i < (colList (postCap t) "purchase_date").length := by
      rw [← hcp, length_colList]; exact hi
    rw [List.getD_eq_getElem _ _ (by simpa using hilen), List.getElem_map]
    rw [List.getD_eq_getElem _ _ hilen] at hPi
    rw [hPi]
    rfl
  have hm : getCell r "age_months" = .na := by
    rw [← hget, hcm]
    have hilen : i < (colList (postCap t) "purchase_date").length := by
      rw [← hcp, length_colList]; exact hi
    rw [List.getD_eq_getElem _ _ (by simpa using hilen), List.getElem_map]
    rw [List.getD_eq_getElem _ _ hilen] at hPi
    rw [hPi]
    rfl
  exact ⟨hd, hm⟩

/- ### Claim C1: imputation totality -/

/-- The value shapes a coerced numeric column can hold. -/
def numOrNa (v : Cell) : Prop := v = .na ∨ ∃ q : ℚ, v = .num q

theorem numOrNa_toNumberCell (v : Cell) : numOrNa (toNumberCell v) := by
  unfold numOrNa toNumberCell
  cases v <;> simp
  cases toNumberStr _ <;> simp

theorem numOrNa_sanBattery {v : Cell} (h : numOrNa v) : numOrNa (sanBattery v) := by
  rcases h with h | ⟨q, h⟩ <;> subst h
  · exact Or.inl rfl
  · unfold numOrNa
    simp only [sanBattery]
    split_ifs
    · exact Or.inl rfl
    · exact Or.inr ⟨q, rfl⟩

theorem numOrNa_sanTemp {v : Cell} (h : numOrNa v) : numOrNa (sanTemp v) := by
  rcases h with h | ⟨q, h⟩ <;> subst h
  · exact Or.inl rfl
  · unfold numOrNa
    simp only [sanTemp]
    split_ifs
    · exact Or.inl rfl
    · exact Or.inl rfl
    · exact Or.inr ⟨q, rfl⟩

/-- A column transform that has been applied to one column of a table,
seen through an arbitrary (possibly different) column. -/
theorem shape_stepMapCol (g : String → Cell → Cell) (t : Table) (c c' : String)
    (P : Cell → Prop) (hg : ∀ v, P v → P (g c' v))
    (h : ∀ v ∈ colList t c, P v) : ∀ v ∈ colList (stepMapCol g t c') c, P v := by
  by_cases hcc : c = c'
  · subst hcc
    unfold stepMapCol
    split_ifs with hm
    · rw [colList_mapColTable_self]
      intro v hv
      rw [List.mem_map] at hv
      obtain ⟨x, hx, hvx⟩ := hv
      rw [hvx.symm]
      exact hg x (h x hx)
    · exact h
  · rw [colList_stepMapCol_ne _ _ _ _ hcc]
    exact h

theorem shape_foldl_stepMapCol (g : String → Cell → Cell)
    (P : Cell → Prop) (hg : ∀ c' v, P v → P (g c' v)) :
    ∀ (L : List String) (t : Table) (c : String),
      (∀ v ∈ colList t c, P v) → ∀ v ∈ colList (L.foldl (stepMapCol g) t) c, P v := by
  intro L
  induction L with
  | nil => intro t c h; exact h
  | cons c' L ih =>
      intro t c h
      rw [List.foldl_cons]
      exact ih _ _ (shape_stepMapCol g t c c' P (hg c') h)

/-- Processing a member column of a `stepMapCol` fold rewrites exactly
that column. -/
theorem colList_foldl_stepMapCol_mem (g : String → Cell → Cell) :
    ∀ (L : List String) (t : Table) (c : String), c ∈ L → L.Nodup → c ∈ t.cols →
      colList (L.foldl (stepMapCol g) t) c = (colList t c).map (g c) := by
  intro L
  induction L with
  | nil => intro t c h; cases h
  | cons c' L ih =>
      intro t c hmem hnd hc
      rw [List.foldl_cons]
      rcases List.mem_cons.mp hmem with hcc | hmem2
      · subst hcc
        have hnot : c ∉ L := (List.nodup_cons.mp hnd).1
        rw [colList_foldl_stepMapCol_ne _ _ _ _ hnot]
        unfold stepMapCol
        rw [if_pos hc]
        exact colList_mapColTable_self _ _ _
      · by_cases hcc : c = c'
        · subst hcc
          exact absurd hmem2 (List.nodup_cons.mp hnd).1
        · rw [ih _ _ hmem2 (List.nodup_cons.mp hnd).2
            (by rw [cols_stepMapCol]; exact hc),
            colList_stepMapCol_ne _ _ _ _ hcc]

theorem cols_preNum (t : Table) :
    (modelStep (vendorStep (dateStep (ingestStage t)))).cols = (ingestStage t).cols := by
  unfold dateStep
  rw [cols_modelStep, cols_vendorStep, cols_foldl_stepMapCol]

/-- After numeric coercion and sanity correction, a present numeric
telemetry column holds only finite numbers and nulls. -/
theorem shape_preImpute (t : Table) (c : String) (hc : c ∈ numCols)
    (hcin : c ∈ (ingestStage t).cols) :
    ∀ v ∈ colList (preImpute t) c, numOrNa v := by
  unfold preImpute sanityStep
  apply shape_foldl_stepMapCol _ numOrNa (fun c' v h => numOrNa_sanTemp h)
  have hnum : ∀ v ∈ colList (numStep (modelStep (vendorStep (dateStep (ingestStage t))))) c,
      numOrNa v := by
    unfold numStep
    rw [colList_foldl_stepMapCol_mem _ numCols _ c hc (by decide)
      (by rw [cols_preNum]; exact hcin)]
    intro v hv
    rw [List.mem_map] at hv
    obtain ⟨x, _, hvx⟩ := hv
    rw [hvx.symm]
    exact numOrNa_toNumberCell x
  split_ifs with hb
  · intro v hv
    by_cases hbc : c = "battery_cycle"
    · subst hbc
      rw [colList_mapColTable_self] at hv
      rw [List.mem_map] at hv
      obtain ⟨x, hx, hvx⟩ := hv
      rw [hvx.symm]
      exact numOrNa_sanBattery (hnum x hx)
    · rw [colList_mapColTable_ne _ _ _ _ hbc] at hv
      exact hnum v hv
  · exact hnum

theorem exists_left_zip {α β : Type} :
    ∀ (as : List α) (bs : List β), as.length = bs.length →
      ∀ b ∈ bs, ∃ a, (a, b) ∈ as.zip bs := by
  intro as
  induction as with
  | nil =>
      intro bs h b hb
      cases bs with
      | nil => cases hb
      | cons x xs => simp at h
  | cons a as ih =>
      intro bs h b hb
      cases bs with
      | nil => cases hb
      | cons x xs =>
          rcases List.mem_cons.mp hb with hbx | hbxs
          · exact ⟨a, by rw [hbx]; exact List.mem_cons_self _ _⟩
          · obtain ⟨a2, ha2⟩ := ih xs (by simpa using h) b hbxs
            exact ⟨a2, List.mem_cons_of_mem _ ha2⟩

theorem numOrNa_optNum (o : Option ℚ) : numOrNa (optNum o) := by
  cases o with
  | none => exact Or.inl rfl
  | some m => exact Or.inr ⟨m, rfl⟩

/-- A non-null numeric value survives tier-1 filling in place. -/
theorem tier1Fill_keeps {vcol col : List Cell} (hlen : vcol.length = col.length)
    {q : ℚ} (h : Cell.num q ∈ col) : Cell.num q ∈ tier1Fill vcol col := by
  obtain ⟨a, ha⟩ := exists_left_zip vcol col hlen _ h
  unfold tier1Fill
  exact List.mem_map.mpr ⟨(a, .num q), ha, rfl⟩

/-- Tier-1 filling never nulls an entry: a non-null entry stays itself. -/
theorem tier1Fill_nonNa {vcol col : List Cell} (hall : ∀ v ∈ col, v ≠ Cell.na) :
    ∀ v ∈ tier1Fill vcol col, v ≠ Cell.na := by
  intro v hv
  unfold tier1Fill at hv
  rw [List.mem_map] at hv
  obtain ⟨p, hp, hpv⟩ := hv
  have hmem := (List.of_mem_zip hp).2
  rw [hpv.symm]
  cases hc2 : p.2 with
  | na => exact absurd hc2 (hall p.2 hmem)
  | str s => simp [tier1Val]
  | num q => simp [tier1Val]
  | date d => simp [tier1Val]
  | pinf => simp [tier1Val]
  | ninf => simp [tier1Val]

/-- Tier-1 output at any entry: the old entry, a group median, or null. -/
theorem tier1Fill_shape {vcol col : List Cell} (hshape : ∀ v ∈ col, numOrNa v) :
    ∀ v ∈ tier1Fill vcol col, numOrNa v := by
  intro v hv
  unfold tier1Fill at hv
  rw [List.mem_map] at hv
  obtain ⟨p, hp, hpv⟩ := hv
  have hmem := (List.of_mem_zip hp).2
  rw [hpv.symm]
  cases hc2 : p.2 with
  | na =>
      simp only [tier1Val]
      cases p.1
      · exact Or.inl rfl
      all_goals exact numOrNa_optNum _
  | str s => have h2 := hshape p.2 hmem; rw [hc2] at h2; exact h2
  | num q => have h2 := hshape p.2 hmem; rw [hc2] at h2; exact h2
  | date d => have h2 := hshape p.2 hmem; rw [hc2] at h2; exact h2
  | pinf => have h2 := hshape p.2 hmem; rw [hc2] at h2; exact h2
  | ninf => have h2 := hshape p.2 hmem; rw [hc2] at h2; exact h2

/-- The median of a nonempty value list is defined. -/
theorem medianQ_isSome {xs : List ℚ} (h : xs ≠ []) : ∃ m, medianQ xs = some m := by
  unfold medianQ medianSorted
  have hlen : (List.insertionSort (· ≤ ·) xs).length = xs.length :=
    (List.perm_insertionSort _ xs).length_eq
  have hne : (List.insertionSort (· ≤ ·) xs).length ≠ 0 := by
    rw [hlen]
    exact fun hz => h (List.length_eq_zero.mp hz)
  split_ifs <;> first | exact absurd (by assumption) hne | exact ⟨_, rfl⟩

theorem tier2Fill_eq_some {xs : List Cell} {m : ℚ}
    (hm : medianQ (nonNulls xs) = some m) : tier2Fill xs = xs.map (fillNa m) := by
  unfold tier2Fill
  rw [hm]

theorem tier2Fill_eq_none {xs : List Cell}
    (hm : medianQ (nonNulls xs) = none) : tier2Fill xs = xs := by
  unfold tier2Fill
  rw [hm]

theorem fillNa_nonNa (m : ℚ) (v : Cell) : fillNa m v ≠ Cell.na := by
  cases v <;> simp [fillNa]

/-- With at least one non-null value, tier-2 filling leaves no null. -/
theorem tier2Fill_total {xs : List Cell} {q : ℚ} (h : Cell.num q ∈ xs) :
    ∀ v ∈ tier2Fill xs, v ≠ Cell.na := by
  have hq : q ∈ nonNulls xs := by
    unfold nonNulls
    exact List.mem_filterMap.mpr ⟨.num q, h, rfl⟩
  obtain ⟨m, hm⟩ := medianQ_isSome (List.ne_nil_of_mem hq)
  intro v hv
  rw [tier2Fill_eq_some hm, List.mem_map] at hv
  obtain ⟨x, _, hxv⟩ := hv
  rw [hxv.symm]
  exact fillNa_nonNa m x

/-- Tier-2 filling never nulls an entry. -/
theorem tier2Fill_nonNa {xs : List Cell} (hall : ∀ v ∈ xs, v ≠ Cell.na) :
    ∀ v ∈ tier2Fill xs, v ≠ Cell.na := by
  intro v hv
  cases hm : medianQ (nonNulls xs) with
  | none => rw [tier2Fill_eq_none hm] at hv; exact hall v hv
  | some m =>
      rw [tier2Fill_eq_some hm, List.mem_map] at hv
      obtain ⟨x, _, hxv⟩ := hv
      rw [hxv.symm]
      exact fillNa_nonNa m x

/-- The lengths feeding one column fill agree. -/
theorem length_vcol_col (t : Table) (c : String) :
    (colList t "vendor").length = (colList t c).length := by
  rw [length_colList, length_colList]

/-- A single imputation turn fills its column completely when the column
has at least one non-null (numeric) value. -/
theorem imputeCol_fills {t t1 : Table} {c : String} (h : imputeCol t c = .ok t1)
    (hc : c ∈ t.cols) {q : ℚ} (hex : Cell.num q ∈ colList t c) :
    ∀ v ∈ colList t1 c, v ≠ Cell.na := by
  unfold imputeCol at h
  rw [if_pos hc] at h
  split_ifs at h
  cases h
  rw [colList_fillColumn_self]
  exact tier2Fill_total (tier1Fill_keeps (length_vcol_col t c) hex)

/-- An imputation turn never reintroduces nulls into a fully non-null
column (its own or any other). -/
theorem imputeCol_preserves_nonNa {t t1 : Table} {c c' : String}
    (h : imputeCol t c = .ok t1) (hall : ∀ v ∈ colList t c', v ≠ Cell.na) :
    ∀ v ∈ colList t1 c', v ≠ Cell.na := by
  by_cases hcc : c' = c
  · subst hcc
    unfold imputeCol at h
    split_ifs at h
    · cases h
      rw [colList_fillColumn_self]
      exact tier2Fill_nonNa (tier1Fill_nonNa hall)
    · cases h
      exact hall
  · rw [colList_imputeCol_ne c' h hcc]
    exact hall

theorem foldlM_imputeCol_preserves :
    ∀ (L : List String) (t t2 : Table) (c' : String), L.foldlM imputeCol t = .ok t2 →
      (∀ v ∈ colList t c', v ≠ Cell.na) → ∀ v ∈ colList t2 c', v ≠ Cell.na := by
  intro L
  induction L with
  | nil => intro t t2 c' h hall; cases h; exact hall
  | cons c L ih =>
      intro t t2 c' h hall
      rw [List.foldlM_cons] at h
      cases himp : imputeCol t c with
      | error e => rw [himp, exceptBind_error] at h; cases h
      | ok t1 =>
          rw [himp, exceptBind_ok] at h
          exact ih t1 t2 c' h (imputeCol_preserves_nonNa himp hall)

theorem foldlM_imputeCol_total :
    ∀ (L : List String) (t t2 : Table) (c : String), L.foldlM imputeCol t = .ok t2 →
      c ∈ L → c ∈ t.cols → (∃ q : ℚ, Cell.num q ∈ colList t c) →
      ∀ v ∈ colList t2 c, v ≠ Cell.na := by
  intro L
  induction L with
  | nil => intro t t2 c _ hmem; cases hmem
  | cons c0 L ih =>
      intro t t2 c h hmem hc hex
      rw [List.foldlM_cons] at h
      cases himp : imputeCol t c0 with
      | error e => rw [himp, exceptBind_error] at h; cases h
      | ok t1 =>
          rw [himp, exceptBind_ok] at h
          by_cases hcc : c = c0
          · subst hcc
            obtain ⟨q, hq⟩ := hex
            exact foldlM_imputeCol_preserves L t1 t2 c h (imputeCol_fills himp hc hq)
          · refine ih t1 t2 c h (List.mem_of_ne_of_mem hcc hmem)
              (by rw [cols_imputeCol himp]; exact hc) ?_
            obtain ⟨q, hq⟩ := hex
            exact ⟨q, by rw [colList_imputeCol_ne c himp hcc]; exact hq⟩

/-- Non-nulls survive `cap_outliers` on any column. -/
theorem nonNa_clipCell {lo hi : ℚ} {x : Cell} (h : x ≠ Cell.na) :
    clipCell lo hi x ≠ Cell.na := by
  cases x <;> simp [clipCell]
  exact absurd rfl h

theorem colList_capColumn_ne (u : Table) (c c' : String) (h : c' ≠ c) :
    colList (capColumn u c) c' = colList u c' := by
  unfold capColumn
  split_ifs
  · cases nonNulls (colList u c)
    · rfl
    · exact colList_mapColTable_ne _ _ _ _ h
  · rfl

theorem nonNa_capColumn {u : Table} {c' c : String}
    (hall : ∀ v ∈ colList u c, v ≠ Cell.na) :
    ∀ v ∈ colList (capColumn u c') c, v ≠ Cell.na := by
  by_cases hcc : c = c'
  · subst hcc
    unfold capColumn
    split_ifs
    · cases nonNulls (colList u c)
      · exact hall
      · rw [colList_mapColTable_self]
        intro v hv
        rw [List.mem_map] at hv
        obtain ⟨x, hx, hxv⟩ := hv
        rw [hxv.symm]
        exact nonNa_clipCell (hall x hx)
    · exact hall
  · rw [colList_capColumn_ne _ _ _ hcc]
    exact hall

theorem nonNa_capStep {u : Table} {c : String}
    (hall : ∀ v ∈ colList u c, v ≠ Cell.na) :
    ∀ v ∈ colList (capStep u) c, v ≠ Cell.na := by
  have haux : ∀ (L : List String) (u : Table), (∀ v ∈ colList u c, v ≠ Cell.na) →
      ∀ v ∈ colList (L.foldl stepCap u) c, v ≠ Cell.na := by
    intro L
    induction L with
    | nil => intro u h; exact h
    | cons c0 L ih =>
        intro u h
        rw [List.foldl_cons]
        refine ih _ ?_
        unfold stepCap
        split_ifs
        · exact nonNa_capColumn h
        · exact h
  unfold capStep
  exact haux capCols u hall

/-- The numeric telemetry columns are disjoint from the categorical
columns and from the derived feature names. -/
theorem numCols_untouched_later : ∀ c ∈ numCols, c ∉ catCols ∧ c ≠ "age_days" ∧
    c ≠ "age_months" ∧ c ≠ "in_warranty" ∧ c ≠ "battery_health" ∧
    c ≠ "is_nvme" ∧ c ≠ "is_mac" := by decide

/-- Claim C1: after a successful pipeline run, every numeric telemetry
column present in the (ingested) schema is entirely non-null in the
output, provided it was not globally all-null after sanity correction. -/
theorem C1_imputation_totality :
    ∀ t t2 : Table, pipeline t = .ok t2 → ∀ c ∈ numCols, c ∈ (preImpute t).cols →
      (∃ v ∈ colList (preImpute t) c, v ≠ Cell.na) →
      ∀ v ∈ colList t2 c, v ≠ Cell.na := by
  intro t t2 h c hcnum hccols hex
  obtain ⟨tm, himp, hrfl⟩ := pipeline_ok_decompose h
  have hcin : c ∈ (ingestStage t).cols := by rw [cols_preImpute] at hccols; exact hccols
  have hshape := shape_preImpute t c hcnum hcin
  have hexq : ∃ q : ℚ, Cell.num q ∈ colList (preImpute t) c := by
    obtain ⟨v, hv, hvne⟩ := hex
    rcases hshape v hv with hna | ⟨q, hq⟩
    · exact absurd hna hvne
    · exact ⟨q, by rw [hq.symm]; exact hv⟩
  have htm : ∀ v ∈ colList tm c, v ≠ Cell.na := by
    unfold imputeStep at himp
    exact foldlM_imputeCol_total numCols (preImpute t) tm c himp hcnum hccols hexq
  have hcat : ∀ v ∈ colList (catImputeStep tm) c, v ≠ Cell.na := by
    rw [colList_catImputeStep_ne _ _ (numCols_untouched_later c hcnum).1]
    exact htm
  have hcap : ∀ v ∈ colList (capStep (catImputeStep tm)) c, v ≠ Cell.na :=
    nonNa_capStep hcat
  rw [hrfl]
  obtain ⟨_, h1, h2, h3, h4, h5, h6⟩ := numCols_untouched_later c hcnum
  rw [colList_deriveStep_untouched _ _ h1 h2 h3 h4 h5 h6]
  exact hcap

/- ### Claim C7: sanity bounds and quantile capping -/

/-- A sanity-corrected temperature value is inside [20, 120]. -/
theorem sanTemp_bounds (x : Cell) (q : ℚ) (h : sanTemp x = .num q) :
    20 ≤ q ∧ q ≤ 120 := by
  cases x with
  | num q0 =>
      simp only [sanTemp] at h
      split_ifs at h with ha hb
      rw [Cell.num.injEq] at h
      rw [h.symm]
      exact ⟨le_of_not_lt ha, le_of_not_lt hb⟩
  | na => exact absurd h (by simp [sanTemp])
  | str s => exact absurd h (by simp [sanTemp])
  | date d => exact absurd h (by simp [sanTemp])
  | pinf => exact absurd h (by simp [sanTemp])
  | ninf => exact absurd h (by simp [sanTemp])

/-- A sorted list read monotonically through `getD`. -/
theorem sorted_getD_mono {s : List ℚ} (hs : s.Sorted (· ≤ ·)) {i j : ℕ} (hij : i ≤ j)
    (hj : j < s.length) : s.getD i 0 ≤ s.getD j 0 := by
  have hi : i < s.length := lt_of_le_of_lt hij hj
  rw [List.getD_eq_getElem s 0 hi, List.getD_eq_getElem s 0 hj]
  rcases lt_or_eq_of_le hij with hlt | heq
  · have := List.Sorted.rel_get_of_lt hs
      (show (⟨i, hi⟩ : Fin s.length) < ⟨j, hj⟩ from hlt)
    simpa using this
  · subst heq
    exact le_refl _

/-- Linear interpolation into a sorted list is monotone in the position,
below the last index. -/
theorem interpSorted_mono {s : List ℚ} (hs : s.Sorted (· ≤ ·)) {h1 h2 : ℚ}
    (h0 : 0 ≤ h1) (h12 : h1 ≤ h2) (hlt : h2 < (s.length : ℚ) - 1) :
    interpSorted s h1 ≤ interpSorted s h2 := by
  have h02 : 0 ≤ h2 := le_trans h0 h12
  unfold interpSorted
  set i1 : ℕ := (⌊h1⌋).toNat with hi1
  set i2 : ℕ := (⌊h2⌋).toNat with hi2
  have hf1 : (⌊h1⌋ : ℤ) = (i1 : ℤ) := (Int.toNat_of_nonneg (Int.floor_nonneg.mpr h0)).symm
  have hf2 : (⌊h2⌋ : ℤ) = (i2 : ℤ) := (Int.toNat_of_nonneg (Int.floor_nonneg.mpr h02)).symm
  have hc1 : ((i1 : ℚ)) ≤ h1 := by
    have hfl := Int.floor_le h1
    rw [hf1] at hfl
    exact_mod_cast hfl
  have hc1b : h1 < (i1 : ℚ) + 1 := by
    have hfl := Int.lt_floor_add_one h1
    rw [hf1] at hfl
    exact_mod_cast hfl
  have hc2 : ((i2 : ℚ)) ≤ h2 := by
    have hfl := Int.floor_le h2
    rw [hf2] at hfl
    exact_mod_cast hfl
  have hc2b : h2 < (i2 : ℚ) + 1 := by
    have hfl := Int.lt_floor_add_one h2
    rw [hf2] at hfl
    exact_mod_cast hfl
  have hi12 : i1 ≤ i2 := by
    have hfl := Int.floor_mono h12
    rw [hf1, hf2] at hfl
    exact_mod_cast hfl
  have hn2 : i2 + 1 < s.length := by
    have hq : (i2 : ℚ) < (s.length : ℚ) - 1 := lt_of_le_of_lt hc2 hlt
    have hq2 : ((i2 : ℚ)) + 1 < (s.length : ℚ) := by linarith
    exact_mod_cast hq2
  have hab1 : s.getD i1 0 ≤ s.getD (i1 + 1) 0 :=
    sorted_getD_mono hs (Nat.le_succ i1)
      (lt_of_le_of_lt (Nat.succ_le_succ hi12) hn2)
  have hab2 : s.getD i2 0 ≤ s.getD (i2 + 1) 0 := sorted_getD_mono hs (Nat.le_succ i2) hn2
  rcases eq_or_lt_of_le hi12 with heq | hlt12
  · rw [heq.symm]
    rw [heq.symm] at hc2
    nlinarith [mul_nonneg (sub_nonneg.mpr h12)
      (sub_nonneg.mpr hab1)]
  · have step1 : (1 - (h1 - (i1 : ℚ))) * s.getD i1 0 + (h1 - (i1 : ℚ)) * s.getD (i1 + 1) 0 ≤
        s.getD (i1 + 1) 0 := by
      nlinarith [mul_nonneg (by linarith : (0 : ℚ) ≤ 1 - (h1 - (i1 : ℚ)))
        (sub_nonneg.mpr hab1)]
    have step2 : s.getD (i1 + 1) 0 ≤ s.getD i2 0 :=
      sorted_getD_mono hs hlt12 (by omega)
    have step3 : s.getD i2 0 ≤
        (1 - (h2 - (i2 : ℚ))) * s.getD i2 0 + (h2 - (i2 : ℚ)) * s.getD (i2 + 1) 0 := by
      nlinarith [mul_nonneg (by linarith : (0 : ℚ) ≤ h2 - (i2 : ℚ))
        (sub_nonneg.mpr hab2)]
    linarith

/-- The run-computed quantiles are ordered: a smaller quantile bound is
below a larger one. -/
theorem quantileQ_mono {xs : List ℚ} (hne : xs ≠ []) {q1 q2 : ℚ}
    (h0 : 0 ≤ q1) (h12 : q1 ≤ q2) (h2 : q2 < 1) : quantileQ xs q1 ≤ quantileQ xs q2 := by
  unfold quantileQ
  have hs : (List.insertionSort (· ≤ ·) xs).Sorted (· ≤ ·) :=
    List.sorted_insertionSort _ _
  have hlen : (List.insertionSort (· ≤ ·) xs).length = xs.length :=
    (List.perm_insertionSort _ xs).length_eq
  have hpos : 1 ≤ (List.insertionSort (· ≤ ·) xs).length := by
    rw [hlen]
    exact List.length_pos.mpr hne
  rcases eq_or_lt_of_le hpos with h1 | hgt
  · have hzero : (((List.insertionSort (· ≤ ·) xs).length : ℚ) - 1) = 0 := by
      rw [h1.symm]
      norm_num
    rw [hzero, zero_mul, zero_mul]
  · apply interpSorted_mono hs
    · have hge : (1 : ℚ) ≤ ((List.insertionSort (· ≤ ·) xs).length : ℚ) := by
        exact_mod_cast hpos
      exact mul_nonneg (by linarith) h0
    · have hge : (1 : ℚ) ≤ ((List.insertionSort (· ≤ ·) xs).length : ℚ) := by
        exact_mod_cast hpos
      exact mul_le_mul_of_nonneg_left h12 (by linarith)
    · have hge : (2 : ℚ) ≤ ((List.insertionSort (· ≤ ·) xs).length : ℚ) := by
        exact_mod_cast hgt
      calc (((List.insertionSort (· ≤ ·) xs).length : ℚ) - 1) * q2
          < (((List.insertionSort (· ≤ ·) xs).length : ℚ) - 1) * 1 :=
            mul_lt_mul_of_pos_left h2 (by linarith)
        _ = ((List.insertionSort (· ≤ ·) xs).length : ℚ) - 1 := mul_one _

/-- A clipped numeric value lies within ordered clip bounds. -/
theorem clipCell_bounds {lo hi : ℚ} (hlohi : lo ≤ hi) {x : Cell} {q : ℚ}
    (h : clipCell lo hi x = .num q) : lo ≤ q ∧ q ≤ hi := by
  cases x with
  | num q0 =>
      simp only [clipCell] at h
      rw [Cell.num.injEq] at h
      rw [h.symm]
      exact ⟨le_min (le_max_right _ _) hlohi, min_le_right _ _⟩
  | pinf =>
      simp only [clipCell] at h
      rw [Cell.num.injEq] at h
      rw [h.symm]
      exact ⟨hlohi, le_refl _⟩
  | ninf =>
      simp only [clipCell] at h
      rw [Cell.num.injEq] at h
      rw [h.symm]
      exact ⟨le_refl _, hlohi⟩
  | na => exact absurd h (by simp [clipCell])
  | str s => exact absurd h (by simp [clipCell])
  | date d => exact absurd h (by simp [clipCell])

theorem colList_stepCap_ne (u : Table) (c c' : String) (h : c' ≠ c) :
    colList (stepCap u c) c' = colList u c' := by
  unfold stepCap
  split_ifs
  · exact colList_capColumn_ne u c c' h
  · rfl

theorem colList_foldl_stepCap_ne :
    ∀ (L : List String) (u : Table) (c' : String), c' ∉ L →
      colList (L.foldl stepCap u) c' = colList u c' := by
  intro L
  induction L with
  | nil => intro u c' _; rfl
  | cons c L ih =>
      intro u c' h
      rw [List.foldl_cons, ih _ _ (fun hh => h (List.mem_cons_of_mem _ hh)),
        colList_stepCap_ne _ _ _ (fun hh => h (by rw [hh]; exact List.mem_cons_self c L))]

/-- Capping a numeric column with at least one non-null value clips it to
its own [1%, 99%] quantile range. -/
theorem colList_capColumn_self (u : Table) (c : String)
    (hall : (colList u c).all numLike = true) (hne : nonNulls (colList u c) ≠ []) :
    colList (capColumn u c) c = (colList u c).map
      (clipCell (quantileQ (nonNulls (colList u c)) (1 / 100))
        (quantileQ (nonNulls (colList u c)) (99 / 100))) := by
  unfold capColumn
  rw [if_pos hall]
  cases hnn : nonNulls (colList u c) with
  | nil => exact absurd hnn hne
  | cons b l2 =>
      rw [colList_mapColTable_self]

/-- Through the capping fold, a member column with numeric contents gets
exactly the quantile clip of its pre-capping state. -/
theorem colList_foldl_stepCap_mem :
    ∀ (L : List String) (u : Table) (c : String), c ∈ L → L.Nodup → c ∈ u.cols →
      (colList u c).all numLike = true → nonNulls (colList u c) ≠ [] →
      colList (L.foldl stepCap u) c = (colList u c).map
        (clipCell (quantileQ (nonNulls (colList u c)) (1 / 100))
          (quantileQ (nonNulls (colList u c)) (99 / 100))) := by
  intro L
  induction L with
  | nil => intro u c h; cases h
  | cons c0 L ih =>
      intro u c hmem hnd hcu hall hne
      rw [List.foldl_cons]
      rcases List.mem_cons.mp hmem with hcc | hmem2
      · subst hcc
        have hnot : c ∉ L := (List.nodup_cons.mp hnd).1
        rw [colList_foldl_stepCap_ne _ _ _ hnot]
        unfold stepCap
        rw [if_pos hcu]
        exact colList_capColumn_self u c hall hne
      · by_cases hcc : c = c0
        · subst hcc
          exact absurd hmem2 (List.nodup_cons.mp hnd).1
        · rw [ih _ _ hmem2 (List.nodup_cons.mp hnd).2
            (by rw [cols_stepCap]; exact hcu)
            (by rw [colList_stepCap_ne _ _ _ hcc]; exact hall)
            (by rw [colList_stepCap_ne _ _ _ hcc]; exact hne),
            colList_stepCap_ne _ _ _ hcc]

/-- Tier-2 filling keeps a numeric column numeric-or-null. -/
theorem tier2Fill_shape {xs : List Cell} (hshape : ∀ v ∈ xs, numOrNa v) :
    ∀ v ∈ tier2Fill xs, numOrNa v := by
  intro v hv
  cases hm : medianQ (nonNulls xs) with
  | none => rw [tier2Fill_eq_none hm] at hv; exact hshape v hv
  | some m =>
      rw [tier2Fill_eq_some hm, List.mem_map] at hv
      obtain ⟨x, hx, hxv⟩ := hv
      rw [hxv.symm]
      rcases hshape x hx with hna | ⟨q, hq⟩
      · rw [hna]; exact Or.inr ⟨m, rfl⟩
      · rw [hq]; exact Or.inr ⟨q, rfl⟩

/-- One imputation turn keeps every column numeric-or-null (for columns
that already were). -/
theorem imputeCol_shape {t t1 : Table} {c c' : String} (h : imputeCol t c = .ok t1)
    (hshape : ∀ v ∈ colList t c', numOrNa v) : ∀ v ∈ colList t1 c', numOrNa v := by
  by_cases hcc : c' = c
  · subst hcc
    unfold imputeCol at h
    split_ifs at h
    · cases h
      rw [colList_fillColumn_self]
      exact tier2Fill_shape (tier1Fill_shape hshape)
    · cases h
      exact hshape
  · rw [colList_imputeCol_ne c' h hcc]
    exact hshape

theorem foldlM_imputeCol_shape :
    ∀ (L : List String) (t t2 : Table) (c' : String), L.foldlM imputeCol t = .ok t2 →
      (∀ v ∈ colList t c', numOrNa v) → ∀ v ∈ colList t2 c', numOrNa v := by
  intro L
  induction L with
  | nil => intro t t2 c' h hs; cases h; exact hs
  | cons c L ih =>
      intro t t2 c' h hs
      rw [List.foldlM_cons] at h
      cases himp : imputeCol t c with
      | error e => rw [himp, exceptBind_error] at h; cases h
      | ok t1 =>
          rw [himp, exceptBind_ok] at h
          exact ih t1 t2 c' h (imputeCol_shape himp hs)

/-- The table the capping stage runs on: everything of lines 61-114. -/
def postCat (t : Table) : Table := catImputeStep (okT (imputeStep (preImpute t)))

theorem postCap_eq_capStep_postCat (t : Table) : postCap t = capStep (postCat t) := rfl

theorem capCols_sub_numCols : ∀ c ∈ capCols, c ∈ numCols := by decide

/-- Claim C7: (a) after sanity correction every non-null `cpu_temp_max`
and `gpu_temp_max` value lies in [20, 120]; (b) after capping, every
non-null value of a present capped column lies within that column's
run-computed [1%, 99%] quantile bounds, the quantiles being taken over
the column's post-imputation state. -/
theorem C7_sanity_and_capping_bounds :
    (∀ t : Table, ∀ c : String, c = "cpu_temp_max" ∨ c = "gpu_temp_max" →
      c ∈ (ingestStage t).cols →
      ∀ v ∈ colList (preImpute t) c, ∀ q : ℚ, v = .num q → 20 ≤ q ∧ q ≤ 120) ∧
    (∀ t t2 : Table, pipeline t = .ok t2 → ∀ c ∈ capCols, c ∈ (ingestStage t).cols →
      nonNulls (colList (postCat t) c) ≠ [] →
      ∀ v ∈ colList t2 c, ∀ q : ℚ, v = .num q →
        quantileQ (nonNulls (colList (postCat t) c)) (1 / 100) ≤ q ∧
        q ≤ quantileQ (nonNulls (colList (postCat t) c)) (99 / 100)) := by
  constructor
  · intro t c hc hcin v hv q hvq
    have hcnum : c ∈ numCols := by rcases hc with h | h <;> rw [h] <;> decide
    have hctemps : c ∈ ["cpu_temp_max", "gpu_temp_max"] := by
      rcases hc with h | h <;> rw [h] <;> decide
    unfold preImpute sanityStep at hv
    rw [colList_foldl_stepMapCol_mem _ _ _ c hctemps (by decide) ?hcols] at hv
    case hcols =>
      have hnum : c ∈ (numStep (modelStep (vendorStep (dateStep (ingestStage t))))).cols := by
        unfold numStep
        rw [cols_foldl_stepMapCol, cols_preNum]
        exact hcin
      split_ifs with hb
      · show c ∈ (mapColTable _ "battery_cycle" sanBattery).cols
        unfold mapColTable
        rw [cols_setColByRow_of_mem _ hb]
        exact hnum
      · exact hnum
    rw [List.mem_map] at hv
    obtain ⟨x, _, hxv⟩ := hv
    rw [hvq] at hxv
    exact sanTemp_bounds x q hxv
  · intro t t2 h c hc hcin hne v hv q hvq
    obtain ⟨tm, himp, _⟩ := pipeline_ok_decompose h
    have hrfl := pipeline_ok_postCap h
    have hcnum : c ∈ numCols := capCols_sub_numCols c hc
    have hcpc : c ∈ (postCat t).cols := by
      unfold postCat
      rw [himp]
      show c ∈ (catImputeStep tm).cols
      rw [cols_catImputeStep, cols_imputeStep himp, cols_preImpute]
      exact hcin
    have hshape : ∀ w ∈ colList (postCat t) c, numOrNa w := by
      unfold postCat
      rw [himp]
      show ∀ w ∈ colList (catImputeStep tm) c, numOrNa w
      have hnc : c ∉ catCols := by
        have hdisj : ∀ x ∈ capCols, x ∉ catCols := by decide
        exact hdisj c hc
      rw [colList_catImputeStep_ne _ _ hnc]
      have hpre := shape_preImpute t c hcnum hcin
      unfold imputeStep at himp
      exact foldlM_imputeCol_shape numCols _ _ c himp hpre
    have hall : (colList (postCat t) c).all numLike = true := by
      rw [List.all_eq_true]
      intro w hw
      rcases hshape w hw with hna | ⟨q0, hq⟩
      · rw [hna]; rfl
      · rw [hq]; rfl
    have hxs : nonNulls (colList (postCat t) c) ≠ [] := hne
    have hcap : colList (capStep (postCat t)) c = (colList (postCat t) c).map
        (clipCell (quantileQ (nonNulls (colList (postCat t) c)) (1 / 100))
          (quantileQ (nonNulls (colList (postCat t) c)) (99 / 100))) := by
      unfold capStep
      exact colList_foldl_stepCap_mem capCols _ c hc (by decide) hcpc hall hxs
    have hnn_ne : nonNulls (colList (postCat t) c) ≠ [] := hxs
    have hlohi : quantileQ (nonNulls (colList (postCat t) c)) (1 / 100) ≤
        quantileQ (nonNulls (colList (postCat t) c)) (99 / 100) :=
      quantileQ_mono hnn_ne (by norm_num) (by norm_num) (by norm_num)
    have hvcap : v ∈ colList (capStep (postCat t)) c := by
      obtain ⟨_, hd1, hd2, hd3, hd4, hd5, hd6⟩ := numCols_untouched_later c hcnum
      rw [hrfl, postCap_eq_capStep_postCat,
        colList_deriveStep_untouched _ _ hd1 hd2 hd3 hd4 hd5 hd6] at hv
      exact hv
    rw [hcap, List.mem_map] at hvcap
    obtain ⟨x, _, hxv⟩ := hvcap
    rw [hvq] at hxv
    exact clipCell_bounds hlohi hxv

/-- A concrete dirty input exercising the pipeline end to end: a
duplicated asset, vendor spelling variants, an empty purchase date and
RAM cell, and an implausible CPU temperature. -/
def exPipe : Table :=
  ⟨["asset_id", "vendor", "purchase_date", "ram_gb", "cpu_temp_max"],
   [[("asset_id", .str "a1"), ("vendor", .str "Dell"), ("purchase_date", .str "2020-01-01"),
     ("ram_gb", .str "8"), ("cpu_temp_max", .str "150")],
    [("asset_id", .str "a2"), ("vendor", .str "dell"), ("purchase_date", .str ""),
     ("ram_gb", .str ""), ("cpu_temp_max", .str "55")],
    [("asset_id", .str "a3"), ("vendor", .str "HP"), ("purchase_date", .str "2030-01-01"),
     ("ram_gb", .str "16"), ("cpu_temp_max", .str "45")]]⟩

/-- Witness for C7: the first output `cpu_temp_max` value of the concrete
run lies within the run-computed [1%, 99%] quantile bounds. -/
theorem C7_witness :
    quantileQ (nonNulls (colList (postCat exPipe) "cpu_temp_max")) (1 / 100) ≤ 55 ∧
    (55 : ℚ) ≤ quantileQ (nonNulls (colList (postCat exPipe) "cpu_temp_max")) (99 / 100) :=
  C7_sanity_and_capping_bounds.2 exPipe (okT (pipeline exPipe)) (ok_of_isOk (by decide))
    "cpu_temp_max" (by decide) (by decide) (by decide)
    ((colList (okT (pipeline exPipe)) "cpu_temp_max").get
      ⟨0, of_decide_eq_true (by with_unfolding_all rfl)⟩)
    (List.get_mem _ _ _) 55 (of_decide_eq_true (by with_unfolding_all rfl))

/-- Witness for C1: on the concrete input, the `ram_gb` cell that came in
empty is non-null in the output. -/
theorem C1_witness :
    (colList (okT (pipeline exPipe)) "ram_gb").get ⟨1, by decide⟩ ≠ Cell.na :=
  C1_imputation_totality exPipe (okT (pipeline exPipe)) (ok_of_isOk (by decide))
    "ram_gb" (by decide) (by decide) ⟨Cell.num 8, by decide⟩
    _ (List.get_mem _ _ _)

/-- Witness for C9: the concrete run's age columns follow the derived
formulas, and every non-null `age_days` is nonnegative. -/
theorem C9_witness :
    colList (okT (pipeline exPipe)) "age_days" =
      (colList (postCap exPipe) "purchase_date").map ageDaysCell ∧
    colList (okT (pipeline exPipe)) "age_months" =
      (colList (postCap exPipe) "purchase_date").map (fun v => ageMonthsCell (ageDaysCell v)) ∧
    (∀ v ∈ colList (okT (pipeline exPipe)) "age_days",
      v = .na ∨ ∃ d : ℚ, 0 ≤ d ∧ v = .num d) :=
  C9_age_features.1 exPipe (okT (pipeline exPipe)) (ok_of_isOk (by decide)) (by decide)

/-- Witness for C10: the output row of asset `a2` (whose purchase date
was the empty string) has null age features. -/
theorem C10_witness :
    getCell ((okT (pipeline exPipe)).rows.get ⟨1, by decide⟩) "age_days" = Cell.na ∧
    getCell ((okT (pipeline exPipe)).rows.get ⟨1, by decide⟩) "age_months" = Cell.na :=
  C10_null_purchase_null_age exPipe (okT (pipeline exPipe)) (ok_of_isOk (by decide))
    (by decide) _ (List.get_mem _ _ _) (by decide)

/-- Witness for C5: a concrete typo normalizes into the canonical set. -/
theorem C5_witness : normVendorStr "Lenov0" ∈ canonicalVendors :=
  C5_vendor_normalization.1 "Lenov0"

/-- Witness for C8: the code coercion and its amended description agree on
a concrete cell. -/
theorem C8_witness : toNumberStr "1,024 MB" = toNumberAmendedStr "1,024 MB" :=
  C8_to_number.1 "1,024 MB"

end LP
